import Mathlib

/-!
Verification of the DevLog hybrid multi-strategy search core.

This file shallowly embeds the core components of the DevLog repository:

* the strategy router (`devlog/core/search_unified.py`, `_detect_search_type`),
* the strategy selection of the unified search (`devlog/core/deep_search.py`,
  `search_all`),
* the result merger/ranker (`deep_search.py`, `_deduplicate_and_rank`),
* the function extractor and diff-hunk parser (`devlog/core/code_extract.py`),
* the embedding index (`devlog/core/embeddings.py`), and
* the keyword strategy executor (`deep_search.py`, `keyword_search`).

Python lists, dicts and SQLite tables are modelled as Lean lists and
structures; Python floats are modelled as `ℚ` where only ordering and `max`
matter, and as `ℝ` for the cosine-similarity analysis; SQL `TEXT` timestamps
(ISO-8601, ordered lexicographically, hence chronologically) are modelled as
`Nat`.  All character-level operations follow Python's ASCII behaviour, which
covers every string the repository feeds to them.
-/

namespace DevLog

/-! ## Python string primitives -/

/-- Python whitespace characters used by `str.split()`, `str.strip()` and the
regex class `\s` (ASCII range). -/
def pyIsSpace (c : Char) : Bool :=
  c = ' ' || c = '\t' || c = '\n' || c = '\r' || c = '\x0b' || c = '\x0c'

/-- The regex class `\w` (ASCII range): letters, digits and underscore. -/
def isWordChar (c : Char) : Bool :=
  c.isAlpha || c.isDigit || c = '_'

/-- `needle` matches at the head of `hay` (one attempt of a literal regex). -/
def leadMatch : List Char → List Char → Bool
  | [], _ => true
  | _ :: _, [] => false
  | n :: ns, h :: hs => n = h && leadMatch ns hs

/-- `needle` occurs somewhere in `hay`: Python's `needle in hay`. -/
def occursIn (needle : List Char) : List Char → Bool
  | [] => leadMatch needle []
  | h :: hs => leadMatch needle (h :: hs) || occursIn needle hs

/-- Python `sub in s` on strings. -/
def pyContains (s sub : String) : Bool :=
  occursIn sub.data s.data

/-- Python `str.lower()` (ASCII; all inputs in the repository are ASCII). -/
def pyLower (s : String) : String :=
  String.mk (s.data.map Char.toLower)

/-- Helper for `pySplitWs`: `acc` is the current word, reversed. -/
def pySplitWsAux : List Char → List Char → List String
  | [], [] => []
  | [], acc => [String.mk acc.reverse]
  | c :: rest, acc =>
    if pyIsSpace c then
      match acc with
      | [] => pySplitWsAux rest []
      | _ :: _ => String.mk acc.reverse :: pySplitWsAux rest []
    else pySplitWsAux rest (c :: acc)

/-- Python `str.split()` with no argument: split on whitespace runs, no empty
words. -/
def pySplitWs (s : String) : List String :=
  pySplitWsAux s.data []

/-- Helper for `pySplitlines`; `acc` is the current line, reversed.  The
boundaries are `\n`, `\r\n` (one boundary) and `\r`. -/
def pySplitlinesAux : List Char → List Char → List String
  | [], [] => []
  | [], acc => [String.mk acc.reverse]
  | '\r' :: '\n' :: rest, acc => String.mk acc.reverse :: pySplitlinesAux rest []
  | '\n' :: rest, acc => String.mk acc.reverse :: pySplitlinesAux rest []
  | '\r' :: rest, acc => String.mk acc.reverse :: pySplitlinesAux rest []
  | c :: rest, acc => pySplitlinesAux rest (c :: acc)

/-- Python `str.splitlines()` for the line boundaries `\n`, `\r`, `\r\n`
(the only ones occurring in git output).  A trailing newline does not produce
an empty final line, and `"".splitlines() == []`. -/
def pySplitlines (s : String) : List String :=
  pySplitlinesAux s.data []

/-- Python `str.strip()` (whitespace on both ends). -/
def pyStrip (s : String) : String :=
  String.mk (((s.data.dropWhile pyIsSpace).reverse.dropWhile pyIsSpace).reverse)

/-- Python `str.lstrip()`. -/
def pyLstrip (s : String) : String :=
  String.mk (s.data.dropWhile pyIsSpace)

/-! ## Strategy router (`search_unified.py`, `UnifiedSearch._detect_search_type`) -/

/-- The function-search indicator tokens of `_detect_search_type`. -/
def functionIndicators : List String :=
  ["function", "class", "method", "def ", "async def"]

/-- The code-content indicator tokens of `_detect_search_type`. -/
def codeIndicators : List String :=
  ["code", "implementation", "algorithm", "logic"]

/-- The brace/paren characters checked by rule 3 of `_detect_search_type`.
(`\x7b`/`\x7d` are `{`/`}`.) -/
def braceChars : List String :=
  ["(", ")", "\x7b", "\x7d"]

/-- `UnifiedSearch._detect_search_type` from `search_unified.py`:
rule-ordered classification of a query into
`"function"`, `"code"`, `"semantic"` or `"hybrid"`. -/
def detect_search_type (query : String) : String :=
  let query_lower := pyLower query
  let words := pySplitWs query
  if functionIndicators.any (fun t => pyContains query_lower t) then
    "function"
  else if codeIndicators.any (fun t => pyContains query_lower t) then
    "code"
  else if words.length > 4 && !(braceChars.any (fun c => pyContains query c)) then
    "semantic"
  else
    "hybrid"

/-! ## Strategy selection of `DeepSearch.search_all` (`deep_search.py`) -/

/-- Longest run of characters satisfying `p` at the head, with the rest:
greedy `p*` of a regex. -/
def takeRun (p : Char → Bool) : List Char → List Char × List Char
  | [] => ([], [])
  | c :: rest =>
    if p c then
      let (run, rest2) := takeRun p rest
      (c :: run, rest2)
    else ([], c :: rest)

/-- One anchored attempt of the regex `kw\s+(\w+)` at the head of `l`:
the literal keyword, at least one whitespace, then the captured word.
(`\s+` and `\w+` are greedy; the classes are disjoint from what follows, so
greedy matching is exact.) -/
def kwNameAt (kw : List Char) (l : List Char) : Option (List Char) :=
  if leadMatch kw l then
    let rest := l.drop kw.length
    let (sp, rest2) := takeRun pyIsSpace rest
    let (nm, _) := takeRun isWordChar rest2
    if sp ≠ [] && nm ≠ [] then some nm else none
  else none

/-- `re.search(kw + r'\s+(\w+)', l)`: leftmost occurrence wins. -/
def kwNameSearch (kw : List Char) : List Char → Option (List Char)
  | [] => kwNameAt kw []
  | c :: rest =>
    match kwNameAt kw (c :: rest) with
    | some nm => some nm
    | none => kwNameSearch kw rest

/-- `re.match(r'^[a-zA-Z_][a-zA-Z0-9_]*$', s)`: `s` is a bare identifier. -/
def isIdentifier (s : String) : Bool :=
  match s.data with
  | [] => false
  | c :: rest => (c.isAlpha || c = '_') && rest.all (fun d => d.isAlphanum || d = '_')

/-- `DeepSearch._extract_function_name` from `deep_search.py`: try the
patterns `function\s+(\w+)`, `method\s+(\w+)`, `class\s+(\w+)`, `def\s+(\w+)`
on the lowercased query in order; otherwise, if the stripped query is a bare
identifier, return it; otherwise `None`. -/
def extract_function_name (query : String) : Option String :=
  let ql := (pyLower query).data
  match kwNameSearch "function".data ql with
  | some nm => some (String.mk nm)
  | none =>
  match kwNameSearch "method".data ql with
  | some nm => some (String.mk nm)
  | none =>
  match kwNameSearch "class".data ql with
  | some nm => some (String.mk nm)
  | none =>
  match kwNameSearch "def".data ql with
  | some nm => some (String.mk nm)
  | none =>
    if isIdentifier (pyStrip query) then some (pyStrip query) else none

/-- The four retrieval strategies. -/
inductive Strategy where
  | keyword
  | codeContent
  | semantic
  | functionName
deriving DecidableEq, Repr

/-- The strategy executors that `DeepSearch.search_all` actually invokes for a
query (`deep_search.py` lines 313–347): keyword and code-content always;
semantic only when the query has more than 2 whitespace-separated words;
function-name only when `_extract_function_name` yields a name. -/
def search_all_strategies (query : String) : List Strategy :=
  [Strategy.keyword, Strategy.codeContent]
    ++ (if (pySplitWs query).length > 2 then [Strategy.semantic] else [])
    ++ (match extract_function_name query with
        | some _ => [Strategy.functionName]
        | none => [])

/-! ## Diff-hunk parsing (`code_extract.py`, `extract_changed_functions`) -/

/-- Decimal value of a digit run (most significant first). -/
def digitsVal (l : List Char) : Nat :=
  l.foldl (fun a c => 10 * a + (c.toNat - '0'.toNat)) 0

/-- `re.search(r'\+(\d+),?(\d+)?', line)`: scan for the first `+` that is
followed by at least one digit; the first group is that digit run, the
optional second group is the digit run after an optional comma (count,
defaulting to 1 when absent — also when the comma is present but followed by
no digit, as in the regex). -/
def findPlusNum : List Char → Option (Nat × Nat)
  | [] => none
  | c :: rest =>
    if c = '+' then
      let (ds, rest2) := takeRun Char.isDigit rest
      if ds = [] then findPlusNum rest
      else
        let count :=
          match rest2 with
          | c2 :: rest3 =>
            if c2 = ',' then
              let (ds2, _) := takeRun Char.isDigit rest3
              if ds2 = [] then 1 else digitsVal ds2
            else 1
          | [] => 1
        some (digitsVal ds, count)
    else findPlusNum rest

/-- The per-line hunk-header parse of `extract_changed_functions`: only lines
starting with `@@` are considered, and a line yields `(new_start, new_count)`
exactly when the regex finds `+digits` in it. -/
def parseHunkLine (line : String) : Option (Nat × Nat) :=
  if leadMatch "@@".data line.data then findPlusNum line.data else none

/-- The accumulation loop of `extract_changed_functions`: each parsed hunk
header contributes `range(start, start + count)` to the changed-line set;
unparseable lines contribute nothing. -/
def changedLinesOf (lines : List String) : Finset ℕ :=
  lines.foldl
    (fun acc line =>
      match parseHunkLine line with
      | some (s, c) => acc ∪ Finset.Ico s (s + c)
      | none => acc)
    ∅

/-- The changed-line set derived from a unified diff
(`extract_changed_functions`, first half). -/
def changed_lines (diff_text : String) : Finset ℕ :=
  changedLinesOf (pySplitlines diff_text)

/-! ## Function extractor (`code_extract.py`) -/

/-- `{` written without a literal brace character. -/
def braceOpen : Char := '\x7b'

/-- `}` written without a literal brace character. -/
def braceClose : Char := '\x7d'

/-- A function/class span as produced by the extractors of
`code_extract.py`: the dict `{name, code, start_line, end_line}`. -/
structure FuncSpan where
  name : String
  code : String
  start_line : Nat
  end_line : Nat
deriving DecidableEq, Repr

/-- `'\n'.join(lines[start:stop])`. -/
def joinLines (lines : List String) (start stop : Nat) : String :=
  String.intercalate "\n" ((lines.drop start).take (stop - start))

/-- One anchored attempt of `^(\s*)(def|class)\s+(\w+)` (`extract_python_functions`):
returns (indentation depth, keyword, name).  `def` and `class` start with
different characters, so the alternation needs no backtracking. -/
def pyFuncHeader (line : String) : Option (Nat × String × String) :=
  let (ws, rest) := takeRun pyIsSpace line.data
  let tryKw : String → Option (Nat × String × String) := fun kw =>
    if leadMatch kw.data rest then
      let rest2 := rest.drop kw.length
      let (sp, rest3) := takeRun pyIsSpace rest2
      let (nm, _) := takeRun isWordChar rest3
      if sp ≠ [] && nm ≠ [] then some (ws.length, kw, String.mk nm) else none
    else none
  (tryKw "def").orElse (fun _ => tryKw "class")

/-- The inner loop of `extract_python_functions`, expressed on the suffix
`lines[i+1:]`: the number of further lines the span consumes.  The loop
skips blank lines and stops at the first non-blank line whose indentation
(Python: `len(line) - len(line.lstrip())`) is `≤ indent`; the 0-based end
index is `i + 1 +` this offset. -/
def pyFindEndOff (indent : Nat) : List String → Nat
  | [] => 0
  | line :: rest =>
    if pyStrip line = "" then 1 + pyFindEndOff indent rest
    else if line.length - (pyLstrip line).length ≤ indent then 0
    else 1 + pyFindEndOff indent rest

/-- The outer loop of `extract_python_functions`: scan for headers; on a match
at line `i` (0-based), the span runs to the inner loop's stopping index `e`,
is recorded with 1-based `start_line = i + 1` and `end_line = e`, and
scanning resumes at `e`.  The loop is structurally recursive on a fuel: every
iteration advances the index by at least 1, so a fuel of `lines.length`
(as passed by `extract_python_aux`) always exhausts the index check first:
the loop exits through `i < lines.length` exactly as the `while` does. -/
def extract_python_go (lines : List String) : Nat → Nat → List FuncSpan → List FuncSpan
  | 0, _, acc => acc
  | fuel + 1, i, acc =>
    if i < lines.length then
      match pyFuncHeader (lines.getD i "") with
      | some (indent, kw, nm) =>
        let e := i + 1 + pyFindEndOff indent (lines.drop (i + 1))
        extract_python_go lines fuel e
          (acc ++ [{ name := kw ++ " " ++ nm, code := joinLines lines i e,
                     start_line := i + 1, end_line := e }])
      | none => extract_python_go lines fuel (i + 1) acc
    else acc

def extract_python_aux (lines : List String) (i : Nat) (acc : List FuncSpan) :
    List FuncSpan :=
  extract_python_go lines lines.length i acc

/-- `extract_python_functions` from `code_extract.py`. -/
def extract_python_functions (code : String) : List FuncSpan :=
  extract_python_aux (pySplitlines code) 0 []

/-- The tail `\([^)]*\)\s*\x7b` shared by the JS method pattern and the C
pattern: an opening paren, a run of non-`)` characters, `)`, optional
whitespace, then an opening brace. -/
def parenThenBrace : List Char → Bool
  | '(' :: r =>
    let (_, r2) := takeRun (fun c => c ≠ ')') r
    (match r2 with
     | ')' :: r3 =>
       let (_, r4) := takeRun pyIsSpace r3
       r4.head? = some braceOpen
     | _ => false)
  | _ => false

/-- JS pattern 1, `^\s*(function\s+\w+)`: group 1 is the whole matched text. -/
def jsPattern1 (l : List Char) : Option String :=
  let (_, r) := takeRun pyIsSpace l
  if leadMatch "function".data r then
    let r2 := r.drop 8
    let (sp, r3) := takeRun pyIsSpace r2
    let (nm, _) := takeRun isWordChar r3
    if sp ≠ [] && nm ≠ [] then some (String.mk ("function".data ++ sp ++ nm))
    else none
  else none

/-- JS patterns 2 and 3, `^\s*(const|let|var)\s+(\w+)\s*=\s*TAIL` with
`TAIL = function` resp. `TAIL = \(`: group 2 is the declared name.  The
keyword alternatives start with distinct characters. -/
def jsDeclName (l : List Char) (tail : List Char → Bool) : Option String :=
  let (_, r) := takeRun pyIsSpace l
  let kw? : Option (List Char) :=
    if leadMatch "const".data r then some "const".data
    else if leadMatch "let".data r then some "let".data
    else if leadMatch "var".data r then some "var".data
    else none
  match kw? with
  | none => none
  | some kw =>
    let r2 := r.drop kw.length
    let (sp, r3) := takeRun pyIsSpace r2
    let (nm, r4) := takeRun isWordChar r3
    if sp ≠ [] && nm ≠ [] then
      let (_, r5) := takeRun pyIsSpace r4
      match r5 with
      | '=' :: r6 =>
        let (_, r7) := takeRun pyIsSpace r6
        if tail r7 then some (String.mk nm) else none
      | _ => none
    else none

/-- The part of JS pattern 4 after the optional `async`:
`(\w+)\s*\([^)]*\)\s*\x7b`, group 2 is the name. -/
def jsMethodAt (r : List Char) : Option String :=
  let (nm, r2) := takeRun isWordChar r
  if nm = [] then none
  else
    let (_, r3) := takeRun pyIsSpace r2
    if parenThenBrace r3 then some (String.mk nm) else none

/-- JS pattern 4, `^\s*(async\s+)?(\w+)\s*\([^)]*\)\s*\x7b`.  The optional
`async\s+` group is tried first; if the remainder then fails, the regex
engine retries without it. -/
def jsPattern4 (l : List Char) : Option String :=
  let (_, r) := takeRun pyIsSpace l
  let withAsync : Option String :=
    if leadMatch "async".data r then
      let r2 := r.drop 5
      let (sp, r3) := takeRun pyIsSpace r2
      if sp ≠ [] then jsMethodAt r3 else none
    else none
  withAsync.orElse (fun _ => jsMethodAt r)

/-- The pattern loop of `extract_js_functions`: the four patterns are tried
in order, first match wins. -/
def jsMatcher (line : String) : Option String :=
  (jsPattern1 line.data).orElse fun _ =>
  (jsDeclName line.data (fun r => leadMatch "function".data r)).orElse fun _ =>
  (jsDeclName line.data (fun r => r.head? = some '(')).orElse fun _ =>
  jsPattern4 line.data

/-- The `(class|\w+)\s+(\w+)\s*[\(\x7b]` core of the Java pattern: group 4
(the name) is returned.  The literal `class` alternative is tried first;
on failure of the remainder the `\w+` alternative is retried. -/
def javaCore (r : List Char) : Option String :=
  let attempt : List Char → Option String := fun r2 =>
    let (sp, r3) := takeRun pyIsSpace r2
    let (nm2, r4) := takeRun isWordChar r3
    if sp ≠ [] && nm2 ≠ [] then
      let (_, r5) := takeRun pyIsSpace r4
      match r5.head? with
      | some c => if c = '(' || c = braceOpen then some (String.mk nm2) else none
      | none => none
    else none
  (if leadMatch "class".data r then attempt (r.drop 5) else none).orElse fun _ =>
    let (g3, r2) := takeRun isWordChar r
    if g3 = [] then none else attempt r2

/-- The `\s*(static)?\s*` middle of the Java pattern followed by `javaCore`;
the optional `static` is retried without if the remainder fails. -/
def javaAfterG1 (r : List Char) : Option String :=
  let (_, r2) := takeRun pyIsSpace r
  (if leadMatch "static".data r2 then
     let r3 := r2.drop 6
     let (_, r4) := takeRun pyIsSpace r3
     javaCore r4
   else none).orElse fun _ => javaCore r2

/-- The pattern of `extract_java_functions`,
`^\s*(public|private|protected)?\s*(static)?\s*(class|\w+)\s+(\w+)\s*[\(\x7b]`.
The access-modifier alternatives are prefix-free; the optional group is
retried without if the remainder fails. -/
def javaMatcher (line : String) : Option String :=
  let (_, r) := takeRun pyIsSpace line.data
  let g1? : Option (List Char) :=
    if leadMatch "public".data r then some "public".data
    else if leadMatch "private".data r then some "private".data
    else if leadMatch "protected".data r then some "protected".data
    else none
  match g1? with
  | some kw => (javaAfterG1 (r.drop kw.length)).orElse fun _ => javaAfterG1 r
  | none => javaAfterG1 r

/-- The character class `[\w\*\s]` of the C pattern. -/
def cClassChar (c : Char) : Bool :=
  isWordChar c || c = '*' || pyIsSpace c

/-- The pattern of `extract_c_functions`,
`^\s*[\w\*\s]+\s+(\w+)\s*\([^)]*\)\s*\x7b`.  Since every character of
`\s+(\w+)\s*` lies in the class `[\w\*\s]`, the `(` must sit immediately
after the maximal class run; backtracking of the greedy class run then
forces the captured group to be the last word of the run, preceded
immediately by at least one whitespace, with at least one class character
before that. -/
def cMatcher (line : String) : Option String :=
  let (run, rest) := takeRun cClassChar line.data
  if parenThenBrace rest then
    let rrev := run.reverse.dropWhile pyIsSpace
    let (wRev, qRev) := takeRun isWordChar rrev
    if wRev ≠ [] then
      match qRev with
      | q :: qs => if pyIsSpace q && qs ≠ [] then some (String.mk wRev.reverse) else none
      | [] => none
    else none
  else none

/-- The pattern of `extract_go_functions`,
`^\s*func\s+(\w+|\(\w+\s+\*?\w+\)\s+\w+)\s*\(`: the group is either a plain
name or a receiver form, and the group text itself is the reported name.
The plain alternative is tried first; if the trailing `\s*\(` then fails,
the receiver alternative is retried. -/
def goMatcher (line : String) : Option String :=
  let (_, r) := takeRun pyIsSpace line.data
  if leadMatch "func".data r then
    let r2 := r.drop 4
    let (sp, r3) := takeRun pyIsSpace r2
    if sp = [] then none
    else
      let alt1 : Option (List Char × List Char) :=
        let (nm, r4) := takeRun isWordChar r3
        if nm ≠ [] then some (nm, r4) else none
      let alt2 : Option (List Char × List Char) :=
        match r3 with
        | '(' :: r4 =>
          let (w1, r5) := takeRun isWordChar r4
          if w1 = [] then none else
          let (sp2, r6) := takeRun pyIsSpace r5
          if sp2 = [] then none else
          let (star, r7) :=
            match r6 with
            | '*' :: r7 => ((['*'] : List Char), r7)
            | _ => (([] : List Char), r6)
          let (w2, r8) := takeRun isWordChar r7
          if w2 = [] then none else
          match r8 with
          | ')' :: r9 =>
            let (sp3, r10) := takeRun pyIsSpace r9
            if sp3 = [] then none else
            let (w3, r11) := takeRun isWordChar r10
            if w3 = [] then none else
            some ('(' :: (w1 ++ sp2 ++ star ++ w2 ++ [')'] ++ sp3 ++ w3), r11)
          | _ => none
        | _ => none
      let finish : List Char × List Char → Option String := fun p =>
        let (_, r5) := takeRun pyIsSpace p.2
        if r5.head? = some '(' then some (String.mk p.1) else none
      (alt1.bind finish).orElse fun _ => alt2.bind finish
  else none

/-- `line.count(c)` for a single character. -/
def countChar (c : Char) (s : String) : Nat :=
  s.data.countP (fun d => d = c)

/-- `line.count('{') - line.count('}')`. -/
def netBraces (s : String) : Int :=
  (countChar braceOpen s : Int) - (countChar braceClose s : Int)

/-- The shared brace-balance loop of `extract_js_functions`,
`extract_java_functions`, `extract_c_functions` and `extract_go_functions`
(the source repeats it verbatim in each), expressed on the suffix
`lines[i+1:]`: consume lines while the running count stays positive,
returning the number of lines consumed; the 0-based end index is
`i + 1 +` this offset. -/
def braceFindEndOff (count : Int) : List String → Nat
  | [] => 0
  | line :: rest =>
    if count > 0 then 1 + braceFindEndOff (count + netBraces line) rest
    else 0

/-- The shared scan loop of the four brace-based extractors, parametrised by
the per-language line matcher (the source repeats this loop verbatim in each
extractor).  The loop is structurally recursive on a fuel; as with
`extract_python_go`, a fuel of `lines.length` makes the loop exit through
the index check exactly as the `while` does. -/
def braceExtractGo (matcher : String → Option String) (lines : List String) :
    Nat → Nat → List FuncSpan → List FuncSpan
  | 0, _, acc => acc
  | fuel + 1, i, acc =>
    if i < lines.length then
      match matcher (lines.getD i "") with
      | some nm =>
        let e := i + 1 + braceFindEndOff (netBraces (lines.getD i "")) (lines.drop (i + 1))
        braceExtractGo matcher lines fuel e
          (acc ++ [{ name := nm, code := joinLines lines i e,
                     start_line := i + 1, end_line := e }])
      | none => braceExtractGo matcher lines fuel (i + 1) acc
    else acc

def braceExtractAux (matcher : String → Option String) (lines : List String)
    (i : Nat) (acc : List FuncSpan) : List FuncSpan :=
  braceExtractGo matcher lines lines.length i acc

/-- `extract_js_functions` from `code_extract.py`. -/
def extract_js_functions (code : String) : List FuncSpan :=
  braceExtractAux jsMatcher (pySplitlines code) 0 []

/-- `extract_java_functions` from `code_extract.py`. -/
def extract_java_functions (code : String) : List FuncSpan :=
  braceExtractAux javaMatcher (pySplitlines code) 0 []

/-- `extract_c_functions` from `code_extract.py`. -/
def extract_c_functions (code : String) : List FuncSpan :=
  braceExtractAux cMatcher (pySplitlines code) 0 []

/-- `extract_go_functions` from `code_extract.py`. -/
def extract_go_functions (code : String) : List FuncSpan :=
  braceExtractAux goMatcher (pySplitlines code) 0 []

/-- `extract_functions_from_code` from `code_extract.py`: dispatch on the
language tag; unsupported languages fall back to a single whole-text span. -/
def extract_functions_from_code (code language : String) : List FuncSpan :=
  if language = "python" then extract_python_functions code
  else if language = "javascript" || language = "typescript" then
    extract_js_functions code
  else if language = "java" then extract_java_functions code
  else if language = "c" || language = "cpp" then extract_c_functions code
  else if language = "go" then extract_go_functions code
  else [{ name := "code_block", code := code, start_line := 1,
          end_line := (pySplitlines code).length }]

/-- A span kept by `extract_changed_functions`, with the `changed_lines`
key it adds to the dict. -/
structure ChangedFuncSpan where
  name : String
  code : String
  start_line : Nat
  end_line : Nat
  changed_lines : List Nat
deriving DecidableEq, Repr

/-- `extract_changed_functions` from `code_extract.py`: keep exactly the
spans whose 1-based line range `{start_line, …, end_line}` intersects the
diff's changed-line set, attaching the sorted intersection. -/
def extract_changed_functions (diff_text code_after language : String) :
    List ChangedFuncSpan :=
  let changed := changed_lines diff_text
  (extract_functions_from_code code_after language).filterMap fun f =>
    let func_lines := Finset.Ico f.start_line (f.end_line + 1)
    let inter := func_lines ∩ changed
    if inter.Nonempty then
      some { name := f.name, code := f.code, start_line := f.start_line,
             end_line := f.end_line, changed_lines := inter.sort (· ≤ ·) }
    else none

/-! ## Stable sorting

Python's `sorted` is a stable sort; SQLite's `ORDER BY` is modelled with the
same stable sort (tie order among equal keys is unspecified in SQLite, so a
definite choice is made here).  Any stable sort by the same key computes the
same list as Python's timsort, so an insertion sort is used. -/

/-- Insert `a` before the first element `b` with `le a b`; used from the
right, this keeps the original order among elements with equal keys. -/
def sInsert (le : α → α → Bool) (a : α) : List α → List α
  | [] => [a]
  | b :: bs => if le a b then a :: b :: bs else b :: sInsert le a bs

/-- Stable sort with respect to the total boolean preorder `le`
(`le a b` = "`a` may come before `b`"). -/
def stableSortBy (le : α → α → Bool) : List α → List α
  | [] => []
  | a :: as => sInsert le a (stableSortBy le as)

/-! ## Result merger/ranker (`deep_search.py`, `DeepSearch._deduplicate_and_rank`) -/

/-- One entry of a candidate's `files` list (the keys the merger reads;
the dedup key is `file_path`). -/
structure FileEntry where
  file_path : String
  language : String
deriving DecidableEq, Repr

/-- The projection of a strategy candidate / merged result dict to the keys
the merger reads and the claims mention.  `code_snippets := none` models a
dict without the `'code_snippets'` key (keyword, semantic and function
candidates), `some l` a dict with it (code-content candidates).  Scores are
`ℚ`; timestamps are `Nat` (chronological order of the stored ISO text). -/
structure SearchResult where
  commit_id : Nat
  message : String
  timestamp : Nat
  repo_name : String
  match_type : String
  score : ℚ
  files : List FileEntry
  code_snippets : Option (List String)
deriving DecidableEq, Repr

/-- The body of the `cid in commit_map` branch of `_deduplicate_and_rank`:
score becomes the max; the incoming files whose paths are not already
present (paths collected into a set before the loop) are appended; incoming
snippets are appended (creating the key if absent).  All other keys keep the
existing entry's values. -/
def mergeInto (existing result : SearchResult) : SearchResult :=
  let existing_files := existing.files.map (fun f => f.file_path)
  { existing with
    score := max existing.score result.score
    files := existing.files
      ++ result.files.filter (fun f => ¬ existing_files.any (fun p => p = f.file_path))
    code_snippets :=
      match result.code_snippets with
      | none => existing.code_snippets
      | some s =>
        match existing.code_snippets with
        | none => some s
        | some t => some (t ++ s) }

/-- One step of the grouping loop: the Python `commit_map` dict is an
insertion-ordered association of `commit_id` to entry, modelled as a list
with pairwise-distinct `commit_id`s. -/
def insertResult (commit_map : List SearchResult) (result : SearchResult) :
    List SearchResult :=
  if commit_map.any (fun e => e.commit_id = result.commit_id) then
    commit_map.map (fun e =>
      if e.commit_id = result.commit_id then mergeInto e result else e)
  else commit_map ++ [result]

/-- The grouping loop of `_deduplicate_and_rank`: `commit_map.values()` in
insertion order. -/
def groupByCommit (results : List SearchResult) : List SearchResult :=
  results.foldl insertResult []

/-- The comparison of `sorted(..., key=lambda x: x.get('score', 0),
reverse=True)`: `a` may precede `b` iff `a.score ≥ b.score`. -/
def scoreDescLe (a b : SearchResult) : Bool :=
  b.score ≤ a.score

/-- `DeepSearch._deduplicate_and_rank`: group by commit id, sort by score
descending (stable), truncate to `limit`. -/
def deduplicate_and_rank (results : List SearchResult) (limit : Nat) :
    List SearchResult :=
  (stableSortBy scoreDescLe (groupByCommit results)).take limit

/-! ## Embedding index (`embeddings.py`) -/

/-- One row of the `embed_all_commits` query: a commit id, its message and
the `file_path`s of its `code_changes` rows (in table order;
`GROUP_CONCAT(cc.file_path, ', ')` joins them with `", "`, and is `NULL` —
handled by `files or ''` — when there are none). -/
structure CommitTextRow where
  id : Nat
  message : String
  files : List String
deriving DecidableEq, Repr

/-- The text embedded for a commit: `f"{message} {files or ''}"` with
`files = GROUP_CONCAT(file_path, ', ')`. -/
def embedText (c : CommitTextRow) : String :=
  c.message ++ " " ++ String.intercalate ", " c.files

/-- The `commit_embeddings` table: `commit_id` (primary key) to vector. -/
abbrev EmbStore := List (Nat × List ℚ)

/-- `SELECT embedding FROM commit_embeddings WHERE commit_id = ?`. -/
def lookupEmbedding (st : EmbStore) (cid : Nat) : Option (List ℚ) :=
  (st.find? (fun p => p.1 = cid)).map (fun p => p.2)

/-- `store_commit_embedding`: `INSERT OR REPLACE` keyed on `commit_id`. -/
def store_commit_embedding (st : EmbStore) (cid : Nat) (v : List ℚ) : EmbStore :=
  if st.any (fun p => p.1 = cid) then
    st.map (fun p => if p.1 = cid then (cid, v) else p)
  else st ++ [(cid, v)]

/-- The `WHERE ce.embedding IS NULL` selection of `embed_all_commits`:
commits with no stored embedding row. -/
def pendingCommits (commits : List CommitTextRow) (st : EmbStore) :
    List CommitTextRow :=
  commits.filter (fun c => (lookupEmbedding st c.id).isNone)

/-- `embed_all_commits` from `embeddings.py`: embed and store every pending
commit's text.  The Python function returns `None` on both paths (the early
`return` when nothing is pending and falling off the end), modelled as the
second component `none : Option Nat`.  `embed` is the external embedding
model (deterministic for identical input). -/
def embed_all_commits (commits : List CommitTextRow) (st : EmbStore)
    (embed : String → List ℚ) : EmbStore × Option Nat :=
  let pending := pendingCommits commits st
  (pending.foldl (fun s c => store_commit_embedding s c.id (embed (embedText c))) st,
   none)

/-- Dot product of `np.dot` on equal-length float vectors, idealised over
`ℝ`. -/
def dotList (a b : List ℝ) : ℝ :=
  (List.zipWith (fun x y => x * y) a b).sum

/-- `np.linalg.norm`: the Euclidean norm. -/
noncomputable def normList (a : List ℝ) : ℝ :=
  Real.sqrt (dotList a a)

/-- `cosine_similarity` from `embeddings.py`:
`np.dot(a, b) / (np.linalg.norm(a) * np.linalg.norm(b))`, with no guard of
any kind on the denominator. -/
noncomputable def cosine_similarity (a b : List ℝ) : ℝ :=
  dotList a b / (normList a * normList b)

/-! ## Keyword strategy executor (`deep_search.py`, `DeepSearch.keyword_search`) -/

/-- A `tracked_repos` row (the columns the keyword strategy reads). -/
structure RepoRow where
  id : Nat
  repo_name : String
  repo_path : String
  active : Bool
deriving DecidableEq, Repr

/-- A `git_commits` row.  `timestamp` is `Nat`: the chronological order of
the stored ISO-8601 text, which SQLite compares lexicographically. -/
structure CommitRow where
  id : Nat
  repo_id : Nat
  commit_hash : String
  short_hash : String
  message : String
  author : String
  timestamp : Nat
  branch : String
  files_changed : Nat
  insertions : Nat
  deletions : Nat
deriving DecidableEq, Repr

/-- A `code_changes` row (the `code_after`/`diff_text` columns are omitted:
the keyword strategy never reads them). -/
structure CodeChangeRow where
  commit_id : Nat
  file_path : String
  change_type : String
  language : String
  lines_added : Nat
  lines_removed : Nat
deriving DecidableEq, Repr

/-- The relational store as seen by the keyword strategy. -/
structure Database where
  tracked_repos : List RepoRow
  git_commits : List CommitRow
  code_changes : List CodeChangeRow
deriving Repr

/-- SQLite `text LIKE '%pat%'` (case-insensitive for ASCII). -/
def likeContains (text pat : String) : Bool :=
  occursIn (pyLower pat).data (pyLower text).data

/-- One file dict attached to a keyword result
(`SELECT file_path, change_type, language, lines_added, lines_removed`). -/
structure KwFile where
  file_path : String
  change_type : String
  language : String
  lines_added : Nat
  lines_removed : Nat
deriving DecidableEq, Repr

/-- A row returned by `keyword_search`. -/
structure KwResult where
  commit_id : Nat
  commit_hash : String
  short_hash : String
  message : String
  author : String
  timestamp : Nat
  branch : String
  files_changed : Nat
  insertions : Nat
  deletions : Nat
  repo_name : String
  repo_path : String
  match_type : String
  score : ℚ
  files : List KwFile
deriving DecidableEq, Repr

/-- A row of `git_commits JOIN tracked_repos LEFT JOIN code_changes`:
the third component is `none` for a commit with no `code_changes` rows. -/
abbrev KwRow := CommitRow × RepoRow × Option CodeChangeRow

/-- The join rows contributed by one commit: its matching repository rows
(`ON c.repo_id = r.id`) crossed with its `code_changes` rows, or a single
null-padded row when it has none (`LEFT JOIN`). -/
def kwRowsFor (db : Database) (c : CommitRow) : List KwRow :=
  (db.tracked_repos.filter (fun r => r.id = c.repo_id)).flatMap fun r =>
    match db.code_changes.filter (fun cc => cc.commit_id = c.id) with
    | [] => [(c, r, none)]
    | cc0 :: ccs => (cc0 :: ccs).map (fun cc => (c, r, some cc))

/-- `FROM git_commits c JOIN tracked_repos r ON c.repo_id = r.id
LEFT JOIN code_changes cc ON c.id = cc.commit_id`. -/
def kwJoinRows (db : Database) : List KwRow :=
  db.git_commits.flatMap (kwRowsFor db)

/-- The dynamically built `WHERE` of `keyword_search`: the
message/file-path clause is added only `if query:` (non-empty), the
repo-name clause only when a repo filter is given, the language equality
only when a language is given; `r.active = 1` always.  SQL `NULL`
comparisons on the missing `LEFT JOIN` side are not satisfied. -/
def kwWhere (query : String) (repo_filter language : Option String) :
    KwRow → Bool := fun row =>
  row.2.1.active
  && (query = "" || likeContains row.1.message query
      || (match row.2.2 with
          | some cc => likeContains cc.file_path query
          | none => false))
  && (match repo_filter with
      | some rf => likeContains row.2.1.repo_name rf
      | none => true)
  && (match language with
      | some lg => (match row.2.2 with
          | some cc => cc.language = lg
          | none => false)
      | none => true)

/-- The tuple of selected columns (`SELECT DISTINCT` collapses rows equal on
it; the two constant columns are omitted). -/
def kwDistinctKey (row : KwRow) : CommitRow × String × String :=
  (row.1, row.2.1.repo_name, row.2.1.repo_path)

/-- First-occurrence deduplication by a key (`seen` accumulates the keys
already emitted): `SELECT DISTINCT`. -/
def dedupByKeyAux {β : Type} [DecidableEq β] (key : α → β) (seen : List β) :
    List α → List α
  | [] => []
  | a :: as =>
    if seen.any (fun k => k = key a) then dedupByKeyAux key seen as
    else a :: dedupByKeyAux key (key a :: seen) as

/-- First-occurrence deduplication by a key: `SELECT DISTINCT`. -/
def dedupByKey {β : Type} [DecidableEq β] (key : α → β) (l : List α) : List α :=
  dedupByKeyAux key [] l

/-- `ORDER BY c.timestamp DESC`. -/
def kwTsDescLe (a b : KwRow) : Bool :=
  b.1.timestamp ≤ a.1.timestamp

/-- The per-result file attachment
(`SELECT ... FROM code_changes WHERE commit_id = ?`). -/
def attachFiles (db : Database) (cid : Nat) : List KwFile :=
  (db.code_changes.filter (fun cc => cc.commit_id = cid)).map fun cc =>
    { file_path := cc.file_path, change_type := cc.change_type,
      language := cc.language, lines_added := cc.lines_added,
      lines_removed := cc.lines_removed }

/-- The final projection of a joined row to a result dict, with the
constant columns `'keyword' as match_type, 0.6 as score` and the attached
files. -/
def kwResultOf (db : Database) (row : KwRow) : KwResult :=
  { commit_id := row.1.id, commit_hash := row.1.commit_hash,
    short_hash := row.1.short_hash, message := row.1.message,
    author := row.1.author, timestamp := row.1.timestamp,
    branch := row.1.branch, files_changed := row.1.files_changed,
    insertions := row.1.insertions, deletions := row.1.deletions,
    repo_name := row.2.1.repo_name, repo_path := row.2.1.repo_path,
    match_type := "keyword", score := 0.6, files := attachFiles db row.1.id }

/-- `DeepSearch.keyword_search` from `deep_search.py`: join, filter by the
dynamic `WHERE`, `SELECT DISTINCT`, `ORDER BY c.timestamp DESC`,
`LIMIT ?`, then attach the file details per returned commit. -/
def keyword_search (db : Database) (query : String)
    (repo_filter language : Option String) (limit : Nat) : List KwResult :=
  let rows := (kwJoinRows db).filter (kwWhere query repo_filter language)
  let distinct := dedupByKey kwDistinctKey rows
  let sorted := stableSortBy kwTsDescLe distinct
  (sorted.take limit).map (kwResultOf db)

/-- The filtered rows one commit contributes to the empty-query keyword
search (its `LEFT JOIN` block after the `WHERE`). -/
def kwBlock (db : Database) (repo_filter language : Option String)
    (c : CommitRow) : List KwRow :=
  (kwRowsFor db c).filter (kwWhere "" repo_filter language)

/-! ## Spec-side definitions

Definitions in this section express the *specification's* wording (maxima,
order-preserving unions, filter conditions), to be compared with the
implementation definitions above. -/

/-- Dict lookup in the merger's `commit_map`: the (unique) entry with the
given commit id. -/
def findEntry (m : List SearchResult) (cid : Nat) : Option SearchResult :=
  m.find? (fun e => e.commit_id = cid)

/-- First-seen-order deduplication of a file list by `file_path` (the
spec's "union of the matched-file lists, de-duplicated by file path, first
seen order preserved"). -/
def dedupByPath (fs : List FileEntry) : List FileEntry :=
  dedupByKey (fun f => f.file_path) fs

/-- The candidates of a given commit among the merger's inputs, in order. -/
def candidatesFor (l : List SearchResult) (cid : Nat) : List SearchResult :=
  l.filter (fun r => r.commit_id = cid)

/-- The projection of a merged entry to commit id, score and matched files
(the components the amended merge-invariance claim speaks about; evidence
snippets are deliberately excluded). -/
def projSF (e : SearchResult) : Nat × ℚ × List FileEntry :=
  (e.commit_id, e.score, e.files)

/-- `m` already accounts for candidate `r`: some entry has `r`'s commit id,
at least `r`'s score, and all of `r`'s file paths. -/
def Absorbed (m : List SearchResult) (r : SearchResult) : Prop :=
  ∃ u ∈ m, u.commit_id = r.commit_id ∧ r.score ≤ u.score ∧
    ∀ f ∈ r.files, f.file_path ∈ u.files.map (fun g => g.file_path)

/-- The spec-side qualification predicate for the keyword strategy with an
empty query: the commit belongs to an active repository passing the
repo-name filter, and, when a language filter is given, touches some file
of that language.  (No message/file-path condition appears.) -/
def qualifies (db : Database) (repo_filter language : Option String)
    (c : CommitRow) : Bool :=
  (db.tracked_repos.any (fun r => r.id = c.repo_id && r.active
      && (match repo_filter with
          | some rf => likeContains r.repo_name rf
          | none => true)))
  && (match language with
      | some lg => db.code_changes.any (fun cc => cc.commit_id = c.id && cc.language = lg)
      | none => true)

/-- The spec-side result of the keyword strategy on an empty query: every
qualifying commit, ordered by timestamp descending, truncated to `limit`. -/
def keywordSpecEmpty (db : Database) (repo_filter language : Option String)
    (limit : Nat) : List CommitRow :=
  (stableSortBy (fun a b => b.timestamp ≤ a.timestamp)
    (db.git_commits.filter (qualifies db repo_filter language))).take limit

/-- A hunk header `@@ -a,b +c,d @@` built from digit runs. -/
def mkHunkHeader (a b c d : List Char) : String :=
  String.mk (['@', '@', ' ', '-'] ++ (a ++ ([','] ++ (b ++ ([' ']
    ++ '+' :: (c ++ (',' :: (d ++ [' ', '@', '@']))))))))

/-- A hunk header `@@ -a,b +c @@` with the new-side count omitted. -/
def mkHunkHeaderNoCount (a b c : List Char) : String :=
  String.mk (['@', '@', ' ', '-'] ++ (a ++ ([','] ++ (b ++ ([' ']
    ++ '+' :: (c ++ [' ', '@', '@']))))))

/-! ## Concrete instances used by counterexamples and witnesses -/

/-- A candidate with the older timestamp (scores are inputs to the merger;
integer values keep kernel evaluation of `ℚ` exact). -/
def tieOlder : SearchResult :=
  { commit_id := 1, message := "old", timestamp := 1, repo_name := "r",
    match_type := "keyword", score := 1, files := [], code_snippets := none }

/-- A candidate with the newer timestamp and the same score. -/
def tieNewer : SearchResult :=
  { commit_id := 2, message := "new", timestamp := 2, repo_name := "r",
    match_type := "keyword", score := 1, files := [], code_snippets := none }

/-- A candidate for commit 1 matching file `a`. -/
def candA : SearchResult :=
  { commit_id := 1, message := "m", timestamp := 5, repo_name := "r",
    match_type := "keyword", score := 1,
    files := [{ file_path := "a", language := "python" }], code_snippets := none }

/-- A candidate for commit 1 whose own file list repeats the path `b`. -/
def candDupB : SearchResult :=
  { commit_id := 1, message := "m", timestamp := 5, repo_name := "r",
    match_type := "code_content", score := 2,
    files := [{ file_path := "b", language := "python" },
              { file_path := "b", language := "python" }],
    code_snippets := some ["s"] }

/-- A code-content candidate carrying an evidence snippet. -/
def candSnip : SearchResult :=
  { commit_id := 3, message := "m", timestamp := 7, repo_name := "r",
    match_type := "code_content", score := 2,
    files := [{ file_path := "c", language := "python" }],
    code_snippets := some ["snippet"] }

/-- A commit row for the embedding-index instances. -/
def commitOne : CommitTextRow := { id := 1, message := "m", files := ["a.py"] }

/-- A concrete deterministic embedding model. -/
def embedOne : String → List ℚ := fun _ => [1]

/-- The whole-text fallback span for the one-character text `"x"`. -/
def witnessSpan : FuncSpan :=
  { name := "code_block", code := "x", start_line := 1, end_line := 1 }

/-- The changed-span the diff `@@ -1 +1 @@` keeps for the text `"x"` under
an unsupported language tag. -/
def witnessChanged : ChangedFuncSpan :=
  { name := "code_block", code := "x", start_line := 1, end_line := 1,
    changed_lines :=
      ((Finset.Ico 1 (1 + 1)) ∩ changed_lines "@@ -1 +1 @@").sort (fun m n => m ≤ n) }

/-- A one-commit store for the keyword-search witness. -/
def sampleDb : Database :=
  { tracked_repos := [{ id := 1, repo_name := "repo", repo_path := "/r", active := true }],
    git_commits := [{ id := 1, repo_id := 1, commit_hash := "h", short_hash := "s",
                      message := "add JWT auth", author := "me", timestamp := 100,
                      branch := "main", files_changed := 1, insertions := 2,
                      deletions := 0 }],
    code_changes := [{ commit_id := 1, file_path := "auth.py",
                       change_type := "modified", language := "python",
                       lines_added := 2, lines_removed := 0 }] }

/-! ## Helper lemmas -/

theorem takeRun_eq (p : Char → Bool) :
    ∀ (ds r : List Char), (∀ c ∈ ds, p c = true) → (∀ c ∈ r.take 1, p c = false) →
      takeRun p (ds ++ r) = (ds, r) := by
  intro ds
  induction ds with
  | nil =>
    intro r _ hr
    cases r with
    | nil => rfl
    | cons c rest =>
      have hcp : p c = false := hr c (by simp)
      simp [takeRun, hcp]
  | cons d ds ih =>
    intro r hds hr
    have hd : p d = true := hds d (by simp)
    have := ih r (fun c hc => hds c (by simp [hc])) hr
    simp [takeRun, hd, this]

theorem findPlusNum_append (l r : List Char) (hl : ∀ c ∈ l, c ≠ '+') :
    findPlusNum (l ++ r) = findPlusNum r := by
  induction l with
  | nil => rfl
  | cons c l ih =>
    have hcp : c ≠ '+' := hl c (by simp)
    rw [List.cons_append, findPlusNum, if_neg hcp]
    exact ih (fun x hx => hl x (by simp [hx]))

theorem digit_ne_plus {c : Char} (h : c.isDigit = true) : c ≠ '+' := by
  intro heq; subst heq; simp at h

theorem findPlusNum_hit (c d tail : List Char)
    (hc : ∀ ch ∈ c, ch.isDigit = true) (hd : ∀ ch ∈ d, ch.isDigit = true)
    (hcne : c ≠ []) (hdne : d ≠ []) (htail : ∀ ch ∈ tail.take 1, ch.isDigit = false) :
    findPlusNum ('+' :: (c ++ (',' :: (d ++ tail)))) = some (digitsVal c, digitsVal d) := by
  rw [findPlusNum, if_pos rfl]
  have h1 : takeRun Char.isDigit (c ++ (',' :: (d ++ tail))) = (c, ',' :: (d ++ tail)) :=
    takeRun_eq Char.isDigit c (',' :: (d ++ tail)) hc
      (by intro x hx; simp at hx; subst hx; decide)
  have h2 : takeRun Char.isDigit (d ++ tail) = (d, tail) :=
    takeRun_eq Char.isDigit d tail hd htail
  rw [h1]
  simp only [if_neg hcne, if_pos rfl, h2]
  simp [hcne, hdne]

theorem findPlusNum_hit_nocount (c tail : List Char)
    (hc : ∀ ch ∈ c, ch.isDigit = true) (hcne : c ≠ [])
    (htail1 : ∀ ch ∈ tail.take 1, ch.isDigit = false)
    (htail2 : ∀ ch ∈ tail.take 1, ch ≠ ',') :
    findPlusNum ('+' :: (c ++ tail)) = some (digitsVal c, 1) := by
  rw [findPlusNum, if_pos rfl]
  have h1 : takeRun Char.isDigit (c ++ tail) = (c, tail) :=
    takeRun_eq Char.isDigit c tail hc htail1
  rw [h1]
  simp only [if_neg hcne]
  cases tail with
  | nil => simp [hcne]
  | cons t ts =>
    have : t ≠ ',' := htail2 t (by simp)
    simp [hcne, this]

theorem parse_mkHunkHeader (a b c d : List Char)
    (ha : ∀ ch ∈ a, ch.isDigit = true) (hb : ∀ ch ∈ b, ch.isDigit = true)
    (hc : ∀ ch ∈ c, ch.isDigit = true) (hd : ∀ ch ∈ d, ch.isDigit = true)
    (hcne : c ≠ []) (hdne : d ≠ []) :
    parseHunkLine (mkHunkHeader a b c d) = some (digitsVal c, digitsVal d) := by
  unfold parseHunkLine mkHunkHeader
  rw [if_pos (by simp [leadMatch])]
  show findPlusNum (['@', '@', ' ', '-'] ++ _) = _
  rw [findPlusNum_append _ _ (by decide)]
  rw [findPlusNum_append _ _ (fun x hx => digit_ne_plus (ha x hx))]
  rw [findPlusNum_append _ _ (by decide)]
  rw [findPlusNum_append _ _ (fun x hx => digit_ne_plus (hb x hx))]
  rw [findPlusNum_append _ _ (by decide)]
  exact findPlusNum_hit c d [' ', '@', '@'] hc hd hcne hdne (by decide)

theorem parse_mkHunkHeaderNoCount (a b c : List Char)
    (ha : ∀ ch ∈ a, ch.isDigit = true) (hb : ∀ ch ∈ b, ch.isDigit = true)
    (hc : ∀ ch ∈ c, ch.isDigit = true) (hcne : c ≠ []) :
    parseHunkLine (mkHunkHeaderNoCount a b c) = some (digitsVal c, 1) := by
  unfold parseHunkLine mkHunkHeaderNoCount
  rw [if_pos (by simp [leadMatch])]
  show findPlusNum (['@', '@', ' ', '-'] ++ _) = _
  rw [findPlusNum_append _ _ (by decide)]
  rw [findPlusNum_append _ _ (fun x hx => digit_ne_plus (ha x hx))]
  rw [findPlusNum_append _ _ (by decide)]
  rw [findPlusNum_append _ _ (fun x hx => digit_ne_plus (hb x hx))]
  rw [findPlusNum_append _ _ (by decide)]
  exact findPlusNum_hit_nocount c [' ', '@', '@'] hc hcne (by decide) (by decide)

theorem changedLinesOf_single (line : String) :
    changedLinesOf [line] =
      (match parseHunkLine line with
       | some (s, cnt) => Finset.Ico s (s + cnt)
       | none => ∅) := by
  unfold changedLinesOf
  cases h : parseHunkLine line <;> simp [h]

theorem changedLinesOf_skip (ls1 ls2 : List String) (line : String)
    (h : parseHunkLine line = none) :
    changedLinesOf (ls1 ++ line :: ls2) = changedLinesOf (ls1 ++ ls2) := by
  unfold changedLinesOf
  rw [List.foldl_append, List.foldl_append, List.foldl_cons, h]

theorem sInsert_perm (le : α → α → Bool) (a : α) (l : List α) :
    (sInsert le a l).Perm (a :: l) := by
  induction l with
  | nil => exact List.Perm.refl _
  | cons b bs ih =>
    by_cases h : le a b
    · simp [sInsert, h]
    · simp only [sInsert, if_neg h]
      exact (ih.cons b).trans (List.Perm.swap a b bs)

theorem stableSortBy_perm (le : α → α → Bool) (l : List α) :
    (stableSortBy le l).Perm l := by
  induction l with
  | nil => exact List.Perm.refl _
  | cons a as ih => exact (sInsert_perm le a _).trans (ih.cons a)

theorem sInsert_pairwise (le : α → α → Bool)
    (htrans : ∀ a b c, le a b = true → le b c = true → le a c = true)
    (htot : ∀ a b, le a b = true ∨ le b a = true) (a : α) (l : List α)
    (hl : l.Pairwise (fun x y => le x y = true)) :
    (sInsert le a l).Pairwise (fun x y => le x y = true) := by
  induction l with
  | nil => simp [sInsert]
  | cons b bs ih =>
    rcases List.pairwise_cons.mp hl with ⟨hb, hbs⟩
    by_cases h : le a b
    · simp only [sInsert, if_pos h]
      refine List.pairwise_cons.mpr ⟨?_, hl⟩
      intro x hx
      rcases List.mem_cons.mp hx with rfl | hx
      · exact h
      · exact htrans a b x h (hb x hx)
    · simp only [sInsert, if_neg h]
      refine List.pairwise_cons.mpr ⟨?_, ih hbs⟩
      intro x hx
      rcases List.mem_cons.mp ((sInsert_perm le a bs).mem_iff.mp hx) with hxa | hx
      · rw [hxa]
        rcases htot a b with h1 | h1
        · exact absurd h1 h
        · exact h1
      · exact hb x hx

theorem stableSortBy_pairwise (le : α → α → Bool)
    (htrans : ∀ a b c, le a b = true → le b c = true → le a c = true)
    (htot : ∀ a b, le a b = true ∨ le b a = true) (l : List α) :
    (stableSortBy le l).Pairwise (fun x y => le x y = true) := by
  induction l with
  | nil => simp [stableSortBy]
  | cons a as ih => exact sInsert_pairwise le htrans htot a _ ih

/-! ## Claim theorems -/

/-- C2: the strategy router's classification is deterministic and
rule-ordered: a query containing a function indicator token
(case-insensitively) classifies as Function-Name, else one containing a
code indicator classifies as Code-Content, else one with more than 4 words
and none of the characters `()` `\x7b` `\x7d` classifies as Semantic, and
everything else as hybrid; in particular the four example queries classify
as stated. -/
theorem router_classification :
    (∀ q : String, functionIndicators.any (fun t => pyContains (pyLower q) t) = true →
        detect_search_type q = "function")
  ∧ (∀ q : String, functionIndicators.any (fun t => pyContains (pyLower q) t) = false →
        codeIndicators.any (fun t => pyContains (pyLower q) t) = true →
        detect_search_type q = "code")
  ∧ (∀ q : String, functionIndicators.any (fun t => pyContains (pyLower q) t) = false →
        codeIndicators.any (fun t => pyContains (pyLower q) t) = false →
        4 < (pySplitWs q).length →
        braceChars.any (fun c => pyContains q c) = false →
        detect_search_type q = "semantic")
  ∧ (∀ q : String, functionIndicators.any (fun t => pyContains (pyLower q) t) = false →
        codeIndicators.any (fun t => pyContains (pyLower q) t) = false →
        (¬ 4 < (pySplitWs q).length ∨ braceChars.any (fun c => pyContains q c) = true) →
        detect_search_type q = "hybrid")
  ∧ detect_search_type "find the login function" = "function"
  ∧ detect_search_type "how does the retry logic work" = "code"
  ∧ detect_search_type "what did I do about database connection pooling last week" = "semantic"
  ∧ detect_search_type "fix bug" = "hybrid" := by
  refine ⟨?_, ?_, ?_, ?_, by decide, by decide, by decide, by decide⟩
  · intro q h
    simp [detect_search_type, h]
  · intro q h1 h2
    simp [detect_search_type, h1, h2]
  · intro q h1 h2 h3 h4
    simp [detect_search_type, h1, h2, h3, h4]
  · intro q h1 h2 h3
    rcases h3 with h3 | h3
    · simp [detect_search_type, h1, h2, h3]
    · simp [detect_search_type, h1, h2, h3]

/-- Witness for C2 at the query `"find the login function"`. -/
theorem router_classification_witness :
    detect_search_type "find the login function" = "function" :=
  router_classification.1 "find the login function" (by decide)

/-- C5: a hunk header `@@ -a,b +c,d @@` contributes exactly the line set
`{c, …, c + d - 1}` (as `Finset.Ico c (c + d)`), with `d` defaulting to 1
when omitted; the two concrete examples evaluate as stated; and a line
that is not a parseable hunk header contributes no changed lines and never
aborts processing of the remaining lines. -/
theorem hunk_parsing :
    (∀ a b c d : List Char,
        (∀ ch ∈ a, ch.isDigit = true) → (∀ ch ∈ b, ch.isDigit = true) →
        (∀ ch ∈ c, ch.isDigit = true) → (∀ ch ∈ d, ch.isDigit = true) →
        a ≠ [] → b ≠ [] → c ≠ [] → d ≠ [] →
        changedLinesOf [mkHunkHeader a b c d]
          = Finset.Ico (digitsVal c) (digitsVal c + digitsVal d))
  ∧ (∀ a b c : List Char,
        (∀ ch ∈ a, ch.isDigit = true) → (∀ ch ∈ b, ch.isDigit = true) →
        (∀ ch ∈ c, ch.isDigit = true) → a ≠ [] → b ≠ [] → c ≠ [] →
        changedLinesOf [mkHunkHeaderNoCount a b c]
          = Finset.Ico (digitsVal c) (digitsVal c + 1))
  ∧ changed_lines "@@ -10,3 +20,5 @@" = Finset.Ico 20 25
  ∧ changed_lines "@@ -1,1 +1 @@" = {1}
  ∧ (∀ (ls1 ls2 : List String) (line : String), parseHunkLine line = none →
        changedLinesOf (ls1 ++ line :: ls2) = changedLinesOf (ls1 ++ ls2)) := by
  refine ⟨?_, ?_, by decide, by decide, changedLinesOf_skip⟩
  · intro a b c d ha hb hc hd _ _ hcne hdne
    rw [changedLinesOf_single, parse_mkHunkHeader a b c d ha hb hc hd hcne hdne]
  · intro a b c ha hb hc _ _ hcne
    rw [changedLinesOf_single, parse_mkHunkHeaderNoCount a b c ha hb hc hcne]

/-- Witness for C5 at the header `@@ -10,3 +20,5 @@` built from digit runs. -/
theorem hunk_parsing_witness :
    changedLinesOf [mkHunkHeader ['1', '0'] ['3'] ['2', '0'] ['5']] = Finset.Ico 20 25 :=
  (hunk_parsing.1 ['1', '0'] ['3'] ['2', '0'] ['5'] (by decide) (by decide) (by decide)
    (by decide) (by decide) (by decide) (by decide) (by decide)).trans (by decide)

/-- C9 (corrected): on the query `"fix bug"`, which the router classifies as
hybrid, `search_all` runs only the Keyword and Code-Content strategies — the
Semantic and Function-Name strategies are not invoked, contradicting "runs
all four strategies". -/
theorem hybrid_not_all_strategies :
    detect_search_type "fix bug" = "hybrid"
  ∧ search_all_strategies "fix bug" = [Strategy.keyword, Strategy.codeContent]
  ∧ Strategy.semantic ∉ search_all_strategies "fix bug"
  ∧ Strategy.functionName ∉ search_all_strategies "fix bug" :=
  ⟨by decide, by decide, by decide, by decide⟩

/-- C9 (amended): for every query, `search_all` always runs Keyword and
Code-Content; it runs Semantic exactly when the query has more than 2
whitespace-separated words, and Function-Name exactly when a function name
can be extracted from the query. -/
theorem strategy_selection (q : String) :
    Strategy.keyword ∈ search_all_strategies q
  ∧ Strategy.codeContent ∈ search_all_strategies q
  ∧ (Strategy.semantic ∈ search_all_strategies q ↔ 2 < (pySplitWs q).length)
  ∧ (Strategy.functionName ∈ search_all_strategies q ↔ (extract_function_name q).isSome) := by
  unfold search_all_strategies
  rcases h : extract_function_name q with _ | nm <;>
    by_cases h2 : 2 < (pySplitWs q).length <;>
      simp [h, h2]

/-- C4 (corrected): with two equal-score candidates for distinct commits,
the merger returns them in grouping order even though the first has the
older timestamp — ties are not broken by commit timestamp descending. -/
theorem rank_ties_not_by_timestamp :
    deduplicate_and_rank [tieOlder, tieNewer] 10 = [tieOlder, tieNewer]
  ∧ tieOlder.score = tieNewer.score
  ∧ tieOlder.timestamp < tieNewer.timestamp :=
  ⟨by decide, by decide, by decide⟩

/-- C4 (amended): the merger's output is sorted by score descending (ties
keep first-seen grouping order, by stability) and is truncated to at most
`limit` entries. -/
theorem rank_sorted_by_score (results : List SearchResult) (limit : Nat) :
    List.Pairwise (fun a b => b.score ≤ a.score) (deduplicate_and_rank results limit)
  ∧ (deduplicate_and_rank results limit).length ≤ limit := by
  constructor
  · have hp := stableSortBy_pairwise scoreDescLe
      (by intro a b c hab hbc; simp only [scoreDescLe, decide_eq_true_eq] at *
          exact le_trans hbc hab)
      (by intro a b; simp only [scoreDescLe, decide_eq_true_eq]
          exact le_total b.score a.score)
      (groupByCommit results)
    have hp2 : (stableSortBy scoreDescLe (groupByCommit results)).Pairwise
        (fun a b => b.score ≤ a.score) := by
      refine hp.imp ?_
      intro a b h
      simpa [scoreDescLe] using h
    exact List.Pairwise.sublist (List.take_sublist limit _) hp2
  · exact List.length_take_le limit _

theorem lookup_cons (p : Nat × List ℚ) (ps : EmbStore) (cid : Nat) :
    lookupEmbedding (p :: ps) cid
      = if p.1 = cid then some p.2 else lookupEmbedding ps cid := by
  by_cases hp : p.1 = cid
  · simp [lookupEmbedding, List.find?_cons_of_pos, hp]
  · simp [lookupEmbedding, List.find?_cons_of_neg, hp]

theorem lookup_map_update_other (st : EmbStore) (cid cid' : Nat) (v : List ℚ)
    (h : cid' ≠ cid) :
    lookupEmbedding (st.map (fun p => if p.1 = cid then (cid, v) else p)) cid'
      = lookupEmbedding st cid' := by
  induction st with
  | nil => rfl
  | cons p ps ih =>
    by_cases hp : p.1 = cid
    · have h1 : ¬ ((cid, v).1 = cid') := fun hh => h hh.symm
      have h2 : ¬ (p.1 = cid') := by rw [hp]; exact fun hh => h hh.symm
      rw [List.map_cons, if_pos hp, lookup_cons, lookup_cons, if_neg h1, if_neg h2]
      exact ih
    · rw [List.map_cons, if_neg hp, lookup_cons, lookup_cons]
      by_cases hp' : p.1 = cid'
      · rw [if_pos hp', if_pos hp']
      · rw [if_neg hp', if_neg hp']
        exact ih

theorem lookup_map_update_self (st : EmbStore) (cid : Nat) (v : List ℚ)
    (hany : st.any (fun p => p.1 = cid)) :
    lookupEmbedding (st.map (fun p => if p.1 = cid then (cid, v) else p)) cid
      = some v := by
  induction st with
  | nil => simp at hany
  | cons p ps ih =>
    by_cases hp : p.1 = cid
    · rw [List.map_cons, if_pos hp, lookup_cons, if_pos rfl]
    · have hany' : ps.any (fun p => p.1 = cid) := by
        simpa [List.any_cons, hp] using hany
      rw [List.map_cons, if_neg hp, lookup_cons, if_neg hp]
      exact ih hany'

theorem lookup_append_single_self (st : EmbStore) (cid : Nat) (v : List ℚ)
    (hany : ¬ st.any (fun p => p.1 = cid)) :
    lookupEmbedding (st ++ [(cid, v)]) cid = some v := by
  have hnone : st.find? (fun p => p.1 = cid) = none := by
    rw [List.find?_eq_none]
    intro x hx hpx
    exact hany (List.any_eq_true.mpr ⟨x, hx, hpx⟩)
  unfold lookupEmbedding
  rw [List.find?_append, hnone]
  simp [List.find?_cons_of_pos]

theorem lookup_append_single_other (st : EmbStore) (cid cid' : Nat) (v : List ℚ)
    (h : cid' ≠ cid) :
    lookupEmbedding (st ++ [(cid, v)]) cid' = lookupEmbedding st cid' := by
  have h1 : ¬ ((cid, v).1 = cid') := fun hh => h hh.symm
  unfold lookupEmbedding
  rw [List.find?_append]
  cases hf : st.find? (fun p => decide (p.1 = cid')) with
  | some p => simp
  | none => simp [List.find?_cons_of_neg, h1]

theorem lookup_store_self (st : EmbStore) (cid : Nat) (v : List ℚ) :
    lookupEmbedding (store_commit_embedding st cid v) cid = some v := by
  unfold store_commit_embedding
  by_cases hany : st.any (fun p => p.1 = cid)
  · rw [if_pos hany]; exact lookup_map_update_self st cid v hany
  · rw [if_neg hany]; exact lookup_append_single_self st cid v hany

theorem lookup_store_other (st : EmbStore) (cid cid' : Nat) (v : List ℚ)
    (h : cid' ≠ cid) :
    lookupEmbedding (store_commit_embedding st cid v) cid' = lookupEmbedding st cid' := by
  unfold store_commit_embedding
  by_cases hany : st.any (fun p => p.1 = cid)
  · rw [if_pos hany]; exact lookup_map_update_other st cid cid' v h
  · rw [if_neg hany]; exact lookup_append_single_other st cid cid' v h

end DevLog
namespace DevLog

theorem lookup_store_isSome (st : EmbStore) (cid cid' : Nat) (v : List ℚ)
    (h : (lookupEmbedding st cid').isSome) :
    (lookupEmbedding (store_commit_embedding st cid v) cid').isSome := by
  by_cases hc : cid' = cid
  · subst hc; rw [lookup_store_self]; rfl
  · rw [lookup_store_other st cid cid' v hc]; exact h

theorem fold_store_isSome (embed : String → List ℚ) (l : List CommitTextRow) :
    ∀ (st : EmbStore) (cid : Nat), (lookupEmbedding st cid).isSome →
      (lookupEmbedding
        (l.foldl (fun s c => store_commit_embedding s c.id (embed (embedText c))) st)
        cid).isSome := by
  induction l with
  | nil => intro st cid h; exact h
  | cons c cs ih =>
    intro st cid h
    exact ih _ cid (lookup_store_isSome st c.id cid _ h)

theorem fold_store_mem_isSome (embed : String → List ℚ) (l : List CommitTextRow) :
    ∀ (st : EmbStore) (c : CommitTextRow), c ∈ l →
      (lookupEmbedding
        (l.foldl (fun s c => store_commit_embedding s c.id (embed (embedText c))) st)
        c.id).isSome := by
  induction l with
  | nil => intro st c h; simp at h
  | cons c0 cs ih =>
    intro st c h
    rcases List.mem_cons.mp h with rfl | h
    · exact fold_store_isSome embed cs _ c.id (by rw [lookup_store_self]; rfl)
    · exact ih _ c h

theorem fold_store_not_mem (embed : String → List ℚ) (l : List CommitTextRow) :
    ∀ (st : EmbStore) (cid : Nat), cid ∉ l.map (fun c => c.id) →
      lookupEmbedding
        (l.foldl (fun s c => store_commit_embedding s c.id (embed (embedText c))) st) cid
      = lookupEmbedding st cid := by
  induction l with
  | nil => intro st cid _; rfl
  | cons c0 cs ih =>
    intro st cid h
    simp only [List.map_cons, List.mem_cons, not_or] at h
    rw [List.foldl_cons, ih _ cid (by simpa using h.2), lookup_store_other _ _ _ _ h.1]

theorem fold_store_lookup (embed : String → List ℚ) (l : List CommitTextRow) :
    ∀ (st : EmbStore), ((l.map (fun c => c.id)).Nodup) → ∀ c ∈ l,
      lookupEmbedding
        (l.foldl (fun s c => store_commit_embedding s c.id (embed (embedText c))) st) c.id
      = some (embed (embedText c)) := by
  induction l with
  | nil => intro st _ c h; simp at h
  | cons c0 cs ih =>
    intro st hn c h
    simp only [List.map_cons, List.nodup_cons] at hn
    rcases List.mem_cons.mp h with rfl | h
    · rw [List.foldl_cons, fold_store_not_mem embed cs _ c.id hn.1, lookup_store_self]
    · rw [List.foldl_cons]
      exact ih _ hn.2 c h

/-- C7 (corrected): `embed_all_commits` returns `None` on both code paths;
in particular it does not return the number of commits processed on the
first run, nor a count of 0 on an immediately repeated run. -/
theorem embed_all_returns_no_count :
    (embed_all_commits [commitOne] [] embedOne).2 = none
  ∧ (embed_all_commits [commitOne] [] embedOne).2 ≠ some 1
  ∧ (embed_all_commits [commitOne]
      (embed_all_commits [commitOne] [] embedOne).1 embedOne).2 ≠ some 0 :=
  ⟨rfl, by decide, by decide⟩

/-- C7 (amended): `embed_all_commits` embeds and stores exactly the commits
lacking a stored embedding, deriving each input text as the message followed
by the `", "`-joined file paths; after one run nothing is pending, so an
immediately repeated run stores nothing, leaves the vectors identical and
processes 0 commits (though the function returns `None`, not a count). -/
theorem embed_all_idempotent (commits : List CommitTextRow) (st : EmbStore)
    (embed : String → List ℚ) (hn : (commits.map (fun c => c.id)).Nodup) :
    pendingCommits commits (embed_all_commits commits st embed).1 = []
  ∧ embed_all_commits commits (embed_all_commits commits st embed).1 embed
      = ((embed_all_commits commits st embed).1, none)
  ∧ ∀ c ∈ pendingCommits commits st,
      lookupEmbedding (embed_all_commits commits st embed).1 c.id
        = some (embed (embedText c)) := by
  have hpend : pendingCommits commits (embed_all_commits commits st embed).1 = [] := by
    unfold pendingCommits
    rw [List.filter_eq_nil_iff]
    intro c hc
    unfold embed_all_commits
    simp only [decide_eq_true_eq, Option.isNone_iff_eq_none]
    intro hnone
    by_cases hcp : (lookupEmbedding st c.id).isSome
    · have := fold_store_isSome embed (pendingCommits commits st) st c.id hcp
      rw [hnone] at this; simp at this
    · have hmem : c ∈ pendingCommits commits st := by
        unfold pendingCommits
        rw [List.mem_filter]
        refine ⟨hc, ?_⟩
        rw [Option.isNone_iff_eq_none]
        exact Option.not_isSome_iff_eq_none.mp hcp
      have := fold_store_mem_isSome embed (pendingCommits commits st) st c hmem
      rw [hnone] at this; simp at this
  refine ⟨hpend, ?_, ?_⟩
  · have hdef : embed_all_commits commits (embed_all_commits commits st embed).1 embed
        = ((pendingCommits commits (embed_all_commits commits st embed).1).foldl
            (fun s c => store_commit_embedding s c.id (embed (embedText c)))
            (embed_all_commits commits st embed).1, none) := rfl
    rw [hdef, hpend]
    rfl
  · intro c hc
    have hnp : ((pendingCommits commits st).map (fun c => c.id)).Nodup := by
      have hsub : (pendingCommits commits st).Sublist commits := List.filter_sublist _
      exact (hsub.map (fun c => c.id)).nodup hn
    exact fold_store_lookup embed (pendingCommits commits st) st hnp c hc

/-- Witness for C7 on a one-commit store with no stored embeddings. -/
theorem embed_all_idempotent_witness :
    pendingCommits [commitOne] (embed_all_commits [commitOne] [] embedOne).1 = []
  ∧ embed_all_commits [commitOne] (embed_all_commits [commitOne] [] embedOne).1 embedOne
      = ((embed_all_commits [commitOne] [] embedOne).1, none)
  ∧ ∀ c ∈ pendingCommits [commitOne] ([] : EmbStore),
      lookupEmbedding (embed_all_commits [commitOne] [] embedOne).1 c.id
        = some (embedOne (embedText c)) :=
  embed_all_idempotent [commitOne] [] embedOne (by decide)

theorem dotList_nil_left (b : List ℝ) : dotList [] b = 0 := rfl

theorem dotList_nil_right (a : List ℝ) : dotList a [] = 0 := by
  cases a <;> rfl

theorem dotList_cons (x y : ℝ) (a b : List ℝ) :
    dotList (x :: a) (y :: b) = x * y + dotList a b := by
  simp [dotList]

theorem dotList_self_nonneg (a : List ℝ) : 0 ≤ dotList a a := by
  induction a with
  | nil => simp [dotList]
  | cons x xs ih =>
    rw [dotList_cons]
    have := mul_self_nonneg x
    linarith

theorem normList_nonneg (a : List ℝ) : 0 ≤ normList a := Real.sqrt_nonneg _

theorem normList_sq (a : List ℝ) : normList a ^ 2 = dotList a a :=
  Real.sq_sqrt (dotList_self_nonneg a)

theorem abs_dotList_le : ∀ (a b : List ℝ), |dotList a b| ≤ normList a * normList b := by
  intro a
  induction a with
  | nil =>
    intro b
    simp [dotList_nil_left, normList, dotList]
  | cons x xs ih =>
    intro b
    cases b with
    | nil =>
      have : normList ([] : List ℝ) = 0 := by simp [normList, dotList]
      rw [dotList_nil_right, this, mul_zero]
      simp
    | cons y ys =>
      have hu : 0 ≤ normList xs := normList_nonneg xs
      have hv : 0 ≤ normList ys := normList_nonneg ys
      have hu2 : normList xs ^ 2 = dotList xs xs := normList_sq xs
      have hv2 : normList ys ^ 2 = dotList ys ys := normList_sq ys
      have hd := ih ys
      have hs2 : normList (x :: xs) ^ 2 = x * x + dotList xs xs := by
        rw [normList_sq, dotList_cons]
      have ht2 : normList (y :: ys) ^ 2 = y * y + dotList ys ys := by
        rw [normList_sq, dotList_cons]
      have hs : 0 ≤ normList (x :: xs) := normList_nonneg _
      have ht : 0 ≤ normList (y :: ys) := normList_nonneg _
      rw [dotList_cons]
      have h1 : |x * y + dotList xs ys| ≤ |x| * |y| + normList xs * normList ys := by
        calc |x * y + dotList xs ys| ≤ |x * y| + |dotList xs ys| := abs_add _ _
          _ = |x| * |y| + |dotList xs ys| := by rw [abs_mul]
          _ ≤ |x| * |y| + normList xs * normList ys := by linarith
      have hα : 0 ≤ |x| * |y| + normList xs * normList ys := by positivity
      have hst : 0 ≤ normList (x :: xs) * normList (y :: ys) := mul_nonneg hs ht
      have h2 : (|x| * |y| + normList xs * normList ys) ^ 2
          ≤ (normList (x :: xs) * normList (y :: ys)) ^ 2 := by
        rw [mul_pow, hs2, ht2]
        nlinarith [sq_nonneg (|x| * normList ys - |y| * normList xs),
                   sq_abs x, sq_abs y, hu, hv, mul_nonneg hu hv]
      have h3 := Real.sqrt_le_sqrt h2
      rw [Real.sqrt_sq hα, Real.sqrt_sq hst] at h3
      linarith



/-- C8 (corrected): at zero-norm input vectors `cosine_similarity` does not
raise; it is a total function whose value at `[0], [0]` is the degenerate
quotient `0 / 0` (NaN in the implementation's float arithmetic, `0` in the
real-number model) — a returned score, not an error surfaced to the
caller. -/
theorem cosine_zero_norm_no_error :
    normList [(0 : ℝ)] = 0 ∧ cosine_similarity [(0 : ℝ)] [(0 : ℝ)] = 0 := by
  constructor
  · simp [normList, dotList]
  · simp [cosine_similarity, normList, dotList]

/-- C8 (amended): for equal-length vectors with non-zero norms,
`cosine_similarity` equals `dot(a,b) / (norm(a) * norm(b))` and lies in
`[-1, 1]`. -/
theorem cosine_similarity_bounds (a b : List ℝ) (_hlen : a.length = b.length)
    (ha : normList a ≠ 0) (hb : normList b ≠ 0) :
    cosine_similarity a b = dotList a b / (normList a * normList b)
  ∧ -1 ≤ cosine_similarity a b ∧ cosine_similarity a b ≤ 1 := by
  refine ⟨rfl, ?_⟩
  have hpa : 0 < normList a := lt_of_le_of_ne (normList_nonneg a) (Ne.symm ha)
  have hpb : 0 < normList b := lt_of_le_of_ne (normList_nonneg b) (Ne.symm hb)
  have hpos : 0 < normList a * normList b := mul_pos hpa hpb
  have habs : |cosine_similarity a b| ≤ 1 := by
    unfold cosine_similarity
    rw [abs_div, abs_of_pos hpos]
    exact (div_le_one hpos).mpr (abs_dotList_le a b)
  exact abs_le.mp habs

/-- Witness for C8 at the unit vectors `[1]` and `[1]`. -/
theorem cosine_similarity_bounds_witness :
    cosine_similarity [(1 : ℝ)] [(1 : ℝ)]
      = dotList [(1 : ℝ)] [(1 : ℝ)] / (normList [(1 : ℝ)] * normList [(1 : ℝ)])
  ∧ -1 ≤ cosine_similarity [(1 : ℝ)] [(1 : ℝ)]
  ∧ cosine_similarity [(1 : ℝ)] [(1 : ℝ)] ≤ 1 :=
  cosine_similarity_bounds [(1 : ℝ)] [(1 : ℝ)] rfl
    (by simp [normList, dotList]) (by simp [normList, dotList])

theorem pySplitlinesAux_ne_nil : ∀ (l acc : List Char), (l ≠ [] ∨ acc ≠ []) →
    pySplitlinesAux l acc ≠ [] := by
  intro l acc
  induction l, acc using pySplitlinesAux.induct with
  | case1 => intro h; rcases h with h | h <;> exact absurd rfl h
  | case2 acc hne => intro _; simp [pySplitlinesAux]
  | case3 rest acc ih => intro _; simp [pySplitlinesAux]
  | case4 rest acc ih => intro _; simp [pySplitlinesAux]
  | case5 rest acc hcond ih => intro _; simp [pySplitlinesAux]
  | case6 c rest acc h1 h2 h3 ih =>
    intro _
    have hred : pySplitlinesAux (c :: rest) acc = pySplitlinesAux rest (c :: acc) := by
      simp [pySplitlinesAux]
    exact hred ▸ ih (Or.inr (by simp))
theorem pySplitlines_ne_nil (s : String) (h : s ≠ "") : pySplitlines s ≠ [] := by
  apply pySplitlinesAux_ne_nil
  left
  intro hd
  apply h
  cases s with
  | mk data =>
    cases data with
    | nil => rfl
    | cons a as => simp at hd

theorem extract_python_go_le (lines : List String) :
    ∀ (fuel i : Nat) (acc : List FuncSpan),
      (∀ s ∈ acc, s.start_line ≤ s.end_line) →
      ∀ s ∈ extract_python_go lines fuel i acc, s.start_line ≤ s.end_line := by
  intro fuel
  induction fuel with
  | zero =>
    intro i acc hacc s hs
    exact hacc s hs
  | succ fuel ih =>
    intro i acc hacc s hs
    rw [extract_python_go] at hs
    by_cases hi : i < lines.length
    · rw [if_pos hi] at hs
      cases hh : pyFuncHeader (lines.getD i "") with
      | some t =>
        obtain ⟨indent, kw, nm⟩ := t
        rw [hh] at hs
        refine ih _ _ ?_ s hs
        intro x hx
        rcases List.mem_append.mp hx with hx | hx
        · exact hacc x hx
        · rw [List.mem_singleton] at hx
          subst hx
          simp
      | none =>
        rw [hh] at hs
        exact ih _ _ hacc s hs
    · rw [if_neg hi] at hs
      exact hacc s hs

theorem braceExtractGo_le (matcher : String → Option String) (lines : List String) :
    ∀ (fuel i : Nat) (acc : List FuncSpan),
      (∀ s ∈ acc, s.start_line ≤ s.end_line) →
      ∀ s ∈ braceExtractGo matcher lines fuel i acc, s.start_line ≤ s.end_line := by
  intro fuel
  induction fuel with
  | zero =>
    intro i acc hacc s hs
    exact hacc s hs
  | succ fuel ih =>
    intro i acc hacc s hs
    rw [braceExtractGo] at hs
    by_cases hi : i < lines.length
    · rw [if_pos hi] at hs
      cases hh : matcher (lines.getD i "") with
      | some nm =>
        rw [hh] at hs
        refine ih _ _ ?_ s hs
        intro x hx
        rcases List.mem_append.mp hx with hx | hx
        · exact hacc x hx
        · rw [List.mem_singleton] at hx
          subst hx
          simp
      | none =>
        rw [hh] at hs
        exact ih _ _ hacc s hs
    · rw [if_neg hi] at hs
      exact hacc s hs

/-- C6 (corrected): for the empty text under an unsupported language tag,
the whole-text fallback span is `(start_line, end_line) = (1, 0)`, which
violates `start_line ≤ end_line`. -/
theorem empty_text_fallback_span :
    (extract_functions_from_code "" "text").map (fun f => (f.start_line, f.end_line))
      = [(1, 0)]
  ∧ ¬ (1 : Nat) ≤ 0 :=
  ⟨by decide, by decide⟩

/-- C6 (amended): for every non-empty input text and every language tag,
every span returned by the function extractor satisfies
`start_line ≤ end_line`; and unconditionally, every line number in the
`changed_lines` list of a span returned by the changed-function helper lies
within `[start_line, end_line]`. -/
theorem span_bounds :
    (∀ (code language : String), code ≠ "" →
        ∀ s ∈ extract_functions_from_code code language, s.start_line ≤ s.end_line)
  ∧ (∀ (diff_text code_after language : String),
        ∀ g ∈ extract_changed_functions diff_text code_after language,
        ∀ n ∈ g.changed_lines, g.start_line ≤ n ∧ n ≤ g.end_line) := by
  constructor
  · intro code language hne s hs
    unfold extract_functions_from_code at hs
    split_ifs at hs with h1 h2 h3 h4 h5
    · exact extract_python_go_le _ _ _ _ (by intro x hx; simp at hx) s hs
    · exact braceExtractGo_le _ _ _ _ _ (by intro x hx; simp at hx) s hs
    · exact braceExtractGo_le _ _ _ _ _ (by intro x hx; simp at hx) s hs
    · exact braceExtractGo_le _ _ _ _ _ (by intro x hx; simp at hx) s hs
    · exact braceExtractGo_le _ _ _ _ _ (by intro x hx; simp at hx) s hs
    · rw [List.mem_singleton] at hs
      subst hs
      simp only
      have : pySplitlines code ≠ [] := pySplitlines_ne_nil code hne
      cases hl : pySplitlines code with
      | nil => exact absurd hl this
      | cons a as => simp [hl]
  · intro diff_text code_after language g hg n hn
    unfold extract_changed_functions at hg
    rw [List.mem_filterMap] at hg
    obtain ⟨f, hf, heq⟩ := hg
    by_cases hne : (Finset.Ico f.start_line (f.end_line + 1) ∩ changed_lines diff_text).Nonempty
    · rw [if_pos hne] at heq
      obtain rfl := Option.some_injective _ heq
      simp only at hn
      have hmem : n ∈ Finset.Ico f.start_line (f.end_line + 1) ∩ changed_lines diff_text := by
        have := (Finset.mem_sort (α := ℕ) (fun m k => m ≤ k)).mp hn
        exact this
      have hico := Finset.mem_of_mem_inter_left hmem
      rw [Finset.mem_Ico] at hico
      constructor
      · show f.start_line ≤ n
        exact hico.1
      · show n ≤ f.end_line
        omega
    · rw [if_neg hne] at heq
      exact absurd heq (by simp)
theorem span_bounds_witness :
    witnessSpan.start_line ≤ witnessSpan.end_line
  ∧ (witnessChanged.start_line ≤ 1 ∧ 1 ≤ witnessChanged.end_line) := by
  constructor
  · exact span_bounds.1 "x" "text" (by decide) witnessSpan (by decide)
  · refine span_bounds.2 "@@ -1 +1 @@" "x" "text" witnessChanged ?_ 1 ?_
    · have hfun : extract_functions_from_code "x" "text" = [witnessSpan] := by decide
      unfold extract_changed_functions
      rw [hfun]
      simp only [List.filterMap_cons, List.filterMap_nil]
      rw [if_pos (by decide)]
      simp [witnessChanged, witnessSpan]
    · show (1 : ℕ) ∈ witnessChanged.changed_lines
      unfold witnessChanged
      simp only
      rw [Finset.mem_sort]
      decide

theorem mergeInto_commit_id (e r : SearchResult) :
    (mergeInto e r).commit_id = e.commit_id := rfl

theorem mergeInto_score (e r : SearchResult) :
    (mergeInto e r).score = max e.score r.score := rfl

theorem mergeInto_files (e r : SearchResult) :
    (mergeInto e r).files = e.files
      ++ r.files.filter (fun f =>
          ¬ (e.files.map (fun g => g.file_path)).any (fun p => p = f.file_path)) := rfl

theorem insertResult_nodup (m : List SearchResult) (r : SearchResult)
    (hm : (m.map (fun e => e.commit_id)).Nodup) :
    ((insertResult m r).map (fun e => e.commit_id)).Nodup := by
  unfold insertResult
  by_cases hany : m.any (fun e => e.commit_id = r.commit_id)
  · rw [if_pos hany, List.map_map]
    have : ((fun e => e.commit_id) ∘ fun e =>
        if e.commit_id = r.commit_id then mergeInto e r else e) = fun e => e.commit_id := by
      funext e
      by_cases h : e.commit_id = r.commit_id <;> simp [Function.comp, h, mergeInto_commit_id]
    rw [this]
    exact hm
  · rw [if_neg hany, List.map_append]
    rw [List.nodup_append]
    refine ⟨hm, by simp, ?_⟩
    intro x hx
    simp only [List.map_cons, List.map_nil, List.mem_singleton]
    intro heq
    subst heq
    rw [List.mem_map] at hx
    obtain ⟨e, he, hce⟩ := hx
    exact hany (List.any_eq_true.mpr ⟨e, he, by simp [hce]⟩)

theorem findEntry_insert_self (m : List SearchResult) (r : SearchResult) :
    findEntry (insertResult m r) r.commit_id
      = some (match findEntry m r.commit_id with
              | some e => mergeInto e r
              | none => r) := by
  unfold insertResult findEntry
  by_cases hany : m.any (fun e => e.commit_id = r.commit_id)
  · rw [if_pos hany]
    rw [List.find?_map]
    have hpred : ((fun e => decide (e.commit_id = r.commit_id)) ∘ fun e =>
        if e.commit_id = r.commit_id then mergeInto e r else e)
        = fun e => decide (e.commit_id = r.commit_id) := by
      funext e
      by_cases h : e.commit_id = r.commit_id <;> simp [Function.comp, h, mergeInto_commit_id]
    rw [hpred]
    cases hf : m.find? (fun e => decide (e.commit_id = r.commit_id)) with
    | some e =>
      have he : e.commit_id = r.commit_id := by simpa using List.find?_some hf
      simp [he]
    | none =>
      rw [List.any_eq_true] at hany
      obtain ⟨e, he, hce⟩ := hany
      rw [List.find?_eq_none] at hf
      exact absurd hce (by simpa using hf e he)
  · rw [if_neg hany]
    rw [List.find?_append]
    have hf : m.find? (fun e => decide (e.commit_id = r.commit_id)) = none := by
      rw [List.find?_eq_none]
      intro e he hce
      exact hany (List.any_eq_true.mpr ⟨e, he, hce⟩)
    rw [hf]
    simp [hf, List.find?_eq_none.mp hf]

theorem findEntry_insert_other (m : List SearchResult) (r : SearchResult) (cid : Nat)
    (h : cid ≠ r.commit_id) :
    findEntry (insertResult m r) cid = findEntry m cid := by
  unfold insertResult findEntry
  by_cases hany : m.any (fun e => e.commit_id = r.commit_id)
  · rw [if_pos hany]
    rw [List.find?_map]
    have hpred : ((fun e => decide (e.commit_id = cid)) ∘ fun e =>
        if e.commit_id = r.commit_id then mergeInto e r else e)
        = fun e => decide (e.commit_id = cid) := by
      funext e
      by_cases he : e.commit_id = r.commit_id <;>
        simp [Function.comp, he, mergeInto_commit_id]
    rw [hpred]
    cases hf : m.find? (fun e => decide (e.commit_id = cid)) with
    | some e =>
      have he : e.commit_id = cid := by simpa using List.find?_some hf
      have : ¬ e.commit_id = r.commit_id := by rw [he]; exact h
      simp [this]
    | none => rfl
  · rw [if_neg hany]
    rw [List.find?_append]
    cases hf : m.find? (fun e => decide (e.commit_id = cid)) with
    | some e => rfl
    | none =>
      have : ¬ (r.commit_id = cid) := fun hh => h hh.symm
      simp [List.find?_cons_of_neg, this]
theorem findEntry_foldl (l : List SearchResult) :
    ∀ (m : List SearchResult) (cid : Nat),
      findEntry (l.foldl insertResult m) cid =
        (match findEntry m cid, l.filter (fun r => r.commit_id = cid) with
         | some e, fs => some (fs.foldl mergeInto e)
         | none, [] => none
         | none, f :: fs => some (fs.foldl mergeInto f)) := by
  induction l with
  | nil =>
    intro m cid
    cases hf : findEntry m cid <;> simp [hf]
  | cons r l ih =>
    intro m cid
    rw [List.foldl_cons]
    by_cases hr : r.commit_id = cid
    · have hfilter : (r :: l).filter (fun x => x.commit_id = cid)
          = r :: l.filter (fun x => x.commit_id = cid) := by
        simp [List.filter_cons, hr]
      rw [hfilter, ih (insertResult m r) cid]
      subst hr
      rw [findEntry_insert_self]
      cases hf : findEntry m r.commit_id with
      | some e => simp [List.foldl_cons]
      | none => simp [List.foldl_cons]
    · have hfilter : (r :: l).filter (fun x => x.commit_id = cid)
          = l.filter (fun x => x.commit_id = cid) := by
        simp [List.filter_cons, hr]
      rw [hfilter, ih (insertResult m r) cid,
        findEntry_insert_other m r cid (fun hh => hr hh.symm)]

theorem findEntry_group (l : List SearchResult) (cid : Nat) :
    findEntry (groupByCommit l) cid =
      (match l.filter (fun r => r.commit_id = cid) with
       | [] => none
       | f :: fs => some (fs.foldl mergeInto f)) := by
  unfold groupByCommit
  rw [findEntry_foldl l [] cid]
  have h0 : findEntry [] cid = none := rfl
  rw [h0]
  cases hf : l.filter (fun r => r.commit_id = cid) <;> rfl

theorem foldl_mergeInto_score (fs : List SearchResult) :
    ∀ e : SearchResult, (fs.foldl mergeInto e).score
      = (fs.map (fun r => r.score)).foldl max e.score := by
  induction fs with
  | nil => intro e; rfl
  | cons r fs ih =>
    intro e
    rw [List.foldl_cons, ih (mergeInto e r), List.map_cons, List.foldl_cons,
      mergeInto_score]

theorem foldl_max_ub (xs : List ℚ) : ∀ x0 : ℚ,
    x0 ≤ xs.foldl max x0 ∧ ∀ x ∈ xs, x ≤ xs.foldl max x0 := by
  induction xs with
  | nil => intro x0; exact ⟨le_refl x0, by simp⟩
  | cons x xs ih =>
    intro x0
    rw [List.foldl_cons]
    obtain ⟨h1, h2⟩ := ih (max x0 x)
    refine ⟨le_trans (le_max_left x0 x) h1, ?_⟩
    intro y hy
    rcases List.mem_cons.mp hy with rfl | hy
    · exact le_trans (le_max_right x0 y) h1
    · exact h2 y hy

theorem foldl_max_mem (xs : List ℚ) : ∀ x0 : ℚ,
    xs.foldl max x0 = x0 ∨ xs.foldl max x0 ∈ xs := by
  induction xs with
  | nil => intro x0; exact Or.inl rfl
  | cons x xs ih =>
    intro x0
    rw [List.foldl_cons]
    rcases ih (max x0 x) with h | h
    · rw [h]
      rcases max_choice x0 x with h2 | h2
      · exact Or.inl h2
      · exact Or.inr (by rw [h2]; simp)
    · exact Or.inr (List.mem_cons_of_mem x h)

theorem group_score_max (l : List SearchResult) (cid : Nat) (e : SearchResult)
    (he : findEntry (groupByCommit l) cid = some e) :
    e.score ∈ (candidatesFor l cid).map (fun r => r.score)
  ∧ ∀ s ∈ (candidatesFor l cid).map (fun r => r.score), s ≤ e.score := by
  rw [findEntry_group] at he
  unfold candidatesFor
  cases hf : l.filter (fun r => r.commit_id = cid) with
  | nil => rw [hf] at he; exact absurd he (by simp)
  | cons f fs =>
    rw [hf] at he
    obtain rfl := Option.some_injective _ he
    rw [foldl_mergeInto_score]
    obtain ⟨h1, h2⟩ := foldl_max_ub (fs.map (fun r => r.score)) f.score
    constructor
    · rw [List.map_cons]
      rcases foldl_max_mem (fs.map (fun r => r.score)) f.score with h | h
      · rw [h]; simp
      · exact List.mem_cons_of_mem _ h
    · intro s hs
      rw [List.map_cons, List.mem_cons] at hs
      rcases hs with rfl | hs
      · exact h1
      · exact h2 s hs
theorem foldl_mergeInto_files (fs : List SearchResult) :
    ∀ e : SearchResult, (fs.foldl mergeInto e).files
      = fs.foldl (fun fl r => fl ++ r.files.filter (fun f =>
          ¬ (fl.map (fun g => g.file_path)).any (fun p => p = f.file_path))) e.files := by
  induction fs with
  | nil => intro e; rfl
  | cons r fs ih =>
    intro e
    rw [List.foldl_cons, List.foldl_cons, ih (mergeInto e r), mergeInto_files]

theorem dedupAux_congr_seen {β : Type} [DecidableEq β] (key : FileEntry → β) :
    ∀ (l : List FileEntry) (s1 s2 : List β), (∀ k, k ∈ s1 ↔ k ∈ s2) →
      dedupByKeyAux key s1 l = dedupByKeyAux key s2 l := by
  intro l
  induction l with
  | nil => intro s1 s2 _; rfl
  | cons a l ih =>
    intro s1 s2 hiff
    unfold dedupByKeyAux
    by_cases h : s1.any (fun k => k = key a)
    · have h2 : s2.any (fun k => k = key a) := by
        rw [List.any_eq_true] at h ⊢
        obtain ⟨k, hk, he⟩ := h
        exact ⟨k, (hiff k).mp hk, he⟩
      rw [if_pos h, if_pos h2]
      exact ih s1 s2 hiff
    · have h2 : ¬ s2.any (fun k => k = key a) := by
        intro hh
        apply h
        rw [List.any_eq_true] at hh ⊢
        obtain ⟨k, hk, he⟩ := hh
        exact ⟨k, (hiff k).mpr hk, he⟩
      rw [if_neg h, if_neg h2]
      rw [ih (key a :: s1) (key a :: s2) (by intro k; simp [hiff k])]

theorem dedupAux_cons {α : Type} {β : Type} [DecidableEq β] (key : α → β)
    (s : List β) (a : α) (l : List α) :
    dedupByKeyAux key s (a :: l)
      = if s.any (fun k => k = key a) then dedupByKeyAux key s l
        else a :: dedupByKeyAux key (key a :: s) l := rfl

theorem dedupAux_block {β : Type} [DecidableEq β] (key : FileEntry → β) :
    ∀ (bl : List FileEntry) (s : List β) (rest : List FileEntry),
      ((bl.map key).Nodup) →
      dedupByKeyAux key s (bl ++ rest)
        = bl.filter (fun a => ¬ s.any (fun k => k = key a))
          ++ dedupByKeyAux key
              ((bl.filter (fun a => ¬ s.any (fun k => k = key a))).map key ++ s) rest := by
  intro bl
  induction bl with
  | nil =>
    intro s rest _
    simp
  | cons a bl ih =>
    intro s rest hnd
    rw [List.map_cons, List.nodup_cons] at hnd
    rw [List.cons_append, dedupAux_cons]
    by_cases h : s.any (fun k => k = key a)
    · rw [if_pos h]
      have hfa : (a :: bl).filter (fun a => ¬ s.any (fun k => k = key a))
          = bl.filter (fun a => ¬ s.any (fun k => k = key a)) := by
        rw [List.filter_cons]
        simp only [h]
        rfl
      rw [hfa]
      exact ih s rest hnd.2
    · rw [if_neg h]
      have hfa : (a :: bl).filter (fun a => ¬ s.any (fun k => k = key a))
          = a :: bl.filter (fun a => ¬ s.any (fun k => k = key a)) := by
        rw [List.filter_cons]
        simp only [h]
        rfl
      rw [hfa]
      rw [ih (key a :: s) rest hnd.2]
      have hfb : bl.filter (fun x => ¬ (key a :: s).any (fun k => k = key x))
          = bl.filter (fun x => ¬ s.any (fun k => k = key x)) := by
        apply List.filter_congr
        intro x hx
        have hne : key x ≠ key a := by
          intro hh
          exact hnd.1 (hh ▸ List.mem_map_of_mem key hx)
        simp [List.any_cons, Ne.symm hne]
      rw [hfb, List.cons_append]
      congr 1
      congr 1
      apply dedupAux_congr_seen
      intro k
      simp only [List.map_cons, List.cons_append, List.mem_cons, List.mem_append]
      tauto
theorem foldl_files_dedup :
    ∀ (cands : List SearchResult) (fl : List FileEntry),
      (∀ r ∈ cands, ((r.files.map (fun f => f.file_path)).Nodup)) →
      cands.foldl (fun fl r => fl ++ r.files.filter (fun f =>
          ¬ (fl.map (fun g => g.file_path)).any (fun p => p = f.file_path))) fl
        = fl ++ dedupByKeyAux (fun f => f.file_path) (fl.map (fun g => g.file_path))
            (cands.flatMap (fun r => r.files)) := by
  intro cands
  induction cands with
  | nil =>
    intro fl _
    simp [dedupByKeyAux]
  | cons r cands ih =>
    intro fl hnd
    rw [List.foldl_cons, List.flatMap_cons,
      dedupAux_block (fun f => f.file_path) r.files _ _ (hnd r (by simp))]
    rw [ih _ (fun x hx => hnd x (List.mem_cons_of_mem r hx))]
    rw [List.map_append, List.append_assoc]
    congr 1
    congr 1
    apply dedupAux_congr_seen
    intro k
    simp only [List.mem_append]
    tauto

theorem dedupAux_nodup :
    ∀ (l : List FileEntry) (s : List String),
      (((dedupByKeyAux (fun f => f.file_path) s l).map (fun f => f.file_path)).Nodup)
    ∧ ∀ k ∈ (dedupByKeyAux (fun f => f.file_path) s l).map (fun f => f.file_path), k ∉ s := by
  intro l
  induction l with
  | nil => intro s; simp [dedupByKeyAux]
  | cons a l ih =>
    intro s
    rw [dedupAux_cons]
    by_cases h : s.any (fun k => k = a.file_path)
    · rw [if_pos h]
      exact ih s
    · rw [if_neg h]
      obtain ⟨ih1, ih2⟩ := ih (a.file_path :: s)
      constructor
      · rw [List.map_cons, List.nodup_cons]
        refine ⟨?_, ih1⟩
        intro hmem
        exact ih2 a.file_path hmem (by simp)
      · intro k hk
        rw [List.map_cons, List.mem_cons] at hk
        rcases hk with rfl | hk
        · intro hks
          exact h (List.any_eq_true.mpr ⟨a.file_path, hks, by simp⟩)
        · intro hks
          exact ih2 k hk (List.mem_cons_of_mem _ hks)

/-- C1 (corrected): a candidate whose own file list repeats a path makes the
merged entry's matched-file list contain that path twice — the merger's
per-candidate "seen" set is computed before the loop and not updated inside
it, so duplicates inside one contributing list survive. -/
theorem merge_intra_candidate_duplicate :
    (deduplicate_and_rank [candA, candDupB] 10).map
        (fun e => e.files.map (fun f => f.file_path))
      = [["a", "b", "b"]]
  ∧ ¬ (["a", "b", "b"] : List String).Nodup :=
  ⟨by decide, by decide⟩

/-- C1 (amended): provided every contributing candidate's own file list is
duplicate-free by path (as the strategy executors produce), the merged
entry for a commit id has score equal to the maximum of the contributing
candidates' scores, and its matched-file list is the union of the
contributing lists de-duplicated by file path in first-seen order, with no
duplicate paths. -/
theorem merge_score_max_files_union (l : List SearchResult) (cid : Nat)
    (e : SearchResult)
    (hfiles : ∀ r ∈ l, ((r.files.map (fun f => f.file_path)).Nodup))
    (he : findEntry (groupByCommit l) cid = some e) :
    (e.score ∈ (candidatesFor l cid).map (fun r => r.score)
      ∧ ∀ s ∈ (candidatesFor l cid).map (fun r => r.score), s ≤ e.score)
  ∧ e.files = dedupByPath ((candidatesFor l cid).flatMap (fun r => r.files))
  ∧ ((e.files.map (fun f => f.file_path)).Nodup) := by
  refine ⟨group_score_max l cid e he, ?_⟩
  have hfc : ∀ r ∈ candidatesFor l cid, ((r.files.map (fun f => f.file_path)).Nodup) :=
    fun r hr => hfiles r (List.mem_of_mem_filter hr)
  rw [findEntry_group] at he
  unfold candidatesFor at *
  cases hf : l.filter (fun r => r.commit_id = cid) with
  | nil => rw [hf] at he; exact absurd he (by simp)
  | cons f fs =>
    rw [hf] at he
    obtain rfl := Option.some_injective _ he
    rw [hf] at hfc
    have hff : ((f.files.map (fun g => g.file_path)).Nodup) := hfc f (by simp)
    have hfs : ∀ r ∈ fs, ((r.files.map (fun g => g.file_path)).Nodup) :=
      fun r hr => hfc r (List.mem_cons_of_mem f hr)
    have hfiles_eq : (fs.foldl mergeInto f).files
        = f.files ++ dedupByKeyAux (fun g => g.file_path)
            (f.files.map (fun g => g.file_path)) (fs.flatMap (fun r => r.files)) := by
      rw [foldl_mergeInto_files, foldl_files_dedup fs f.files hfs]
    constructor
    · rw [hfiles_eq]
      unfold dedupByPath dedupByKey
      rw [List.flatMap_cons]
      rw [dedupAux_block (fun g => g.file_path) f.files [] _ hff]
      have hfilter_true : f.files.filter (fun a => ¬ ([] : List String).any
          (fun k => k = a.file_path)) = f.files := by
        apply List.filter_eq_self.mpr
        intro a _
        simp
      rw [hfilter_true]
      congr 1
      apply dedupAux_congr_seen
      intro k
      simp
    · rw [hfiles_eq, List.map_append]
      rw [List.nodup_append]
      obtain ⟨h1, h2⟩ := dedupAux_nodup (fs.flatMap (fun r => r.files))
        (f.files.map (fun g => g.file_path))
      refine ⟨hff, h1, ?_⟩
      intro x hx
      intro hx2
      exact h2 x hx2 hx
theorem projSF_commit_id (e : SearchResult) : (projSF e).1 = e.commit_id := rfl

theorem absorbed_congr (m m' : List SearchResult) (r : SearchResult)
    (h : m.map projSF = m'.map projSF) : Absorbed m r → Absorbed m' r := by
  rintro ⟨u, hu, h1, h2, h3⟩
  have : projSF u ∈ m'.map projSF := h ▸ List.mem_map_of_mem projSF hu
  rw [List.mem_map] at this
  obtain ⟨u', hu', heq⟩ := this
  have e1 : u'.commit_id = u.commit_id := by
    have := congrArg (fun t => t.1) heq
    simpa [projSF] using this
  have e2 : u'.score = u.score := by
    have := congrArg (fun t => t.2.1) heq
    simpa [projSF] using this
  have e3 : u'.files = u.files := by
    have := congrArg (fun t => t.2.2) heq
    simpa [projSF] using this
  refine ⟨u', hu', e1.trans h1, ?_, ?_⟩
  · rw [e2]; exact h2
  · rw [e3]; exact h3

theorem absorbed_insert_self (m : List SearchResult) (r : SearchResult) :
    Absorbed (insertResult m r) r := by
  unfold insertResult
  by_cases hany : m.any (fun e => e.commit_id = r.commit_id)
  · rw [if_pos hany]
    rw [List.any_eq_true] at hany
    obtain ⟨u, hu, hcu⟩ := hany
    simp only [decide_eq_true_eq] at hcu
    refine ⟨mergeInto u r, ?_, ?_, ?_, ?_⟩
    · have hmem := List.mem_map_of_mem (fun e =>
          if e.commit_id = r.commit_id then mergeInto e r else e) hu
      simpa [hcu] using hmem
    · rw [mergeInto_commit_id]; exact hcu
    · rw [mergeInto_score]; exact le_max_right _ _
    · intro f hf
      rw [mergeInto_files, List.map_append, List.mem_append]
      by_cases hmem : (u.files.map (fun g => g.file_path)).any
          (fun p => p = f.file_path)
      · left
        rw [List.any_eq_true] at hmem
        obtain ⟨p, hp, hpe⟩ := hmem
        simp only [decide_eq_true_eq] at hpe
        exact hpe ▸ hp
      · right
        rw [List.mem_map]
        exact ⟨f, List.mem_filter.mpr ⟨hf, by simpa using hmem⟩, rfl⟩
  · rw [if_neg hany]
    exact ⟨r, by simp, rfl, le_refl _, fun f hf => List.mem_map_of_mem _ hf⟩

theorem absorbed_insert_mono (m : List SearchResult) (r x : SearchResult)
    (h : Absorbed m r) : Absorbed (insertResult m x) r := by
  obtain ⟨u, hu, h1, h2, h3⟩ := h
  unfold insertResult
  by_cases hany : m.any (fun e => e.commit_id = x.commit_id)
  · rw [if_pos hany]
    by_cases hux : u.commit_id = x.commit_id
    · refine ⟨mergeInto u x, ?_, ?_, ?_, ?_⟩
      · have hmem := List.mem_map_of_mem (fun e =>
            if e.commit_id = x.commit_id then mergeInto e x else e) hu
        simpa [hux] using hmem
      · rw [mergeInto_commit_id]; exact h1
      · rw [mergeInto_score]; exact le_trans h2 (le_max_left _ _)
      · intro f hf
        rw [mergeInto_files, List.map_append, List.mem_append]
        exact Or.inl (h3 f hf)
    · refine ⟨u, ?_, h1, h2, h3⟩
      have hmem := List.mem_map_of_mem (fun e =>
          if e.commit_id = x.commit_id then mergeInto e x else e) hu
      simpa [hux] using hmem
  · rw [if_neg hany]
    exact ⟨u, List.mem_append_left _ hu, h1, h2, h3⟩

theorem absorbed_foldl (l : List SearchResult) :
    ∀ (m : List SearchResult) (r : SearchResult), Absorbed m r →
      Absorbed (l.foldl insertResult m) r := by
  induction l with
  | nil => intro m r h; exact h
  | cons x l ih =>
    intro m r h
    rw [List.foldl_cons]
    exact ih _ r (absorbed_insert_mono m r x h)

theorem absorbed_group (l : List SearchResult) (r : SearchResult) (hr : r ∈ l) :
    Absorbed (groupByCommit l) r := by
  obtain ⟨s, t, rfl⟩ := List.append_of_mem hr
  unfold groupByCommit
  rw [List.foldl_append, List.foldl_cons]
  exact absorbed_foldl t _ r (absorbed_insert_self _ r)

theorem groupByCommit_nodup (l : List SearchResult) :
    ((groupByCommit l).map (fun e => e.commit_id)).Nodup := by
  unfold groupByCommit
  have : ∀ (m : List SearchResult), ((m.map (fun e => e.commit_id)).Nodup) →
      (((l.foldl insertResult m).map (fun e => e.commit_id)).Nodup) := by
    induction l with
    | nil => intro m hm; exact hm
    | cons r l ih =>
      intro m hm
      rw [List.foldl_cons]
      exact ih _ (insertResult_nodup m r hm)
  exact this [] (by simp)

theorem absorbed_insert_proj (m : List SearchResult) (r : SearchResult)
    (hm : ((m.map (fun e => e.commit_id)).Nodup)) (h : Absorbed m r) :
    (insertResult m r).map projSF = m.map projSF := by
  obtain ⟨u, hu, h1, h2, h3⟩ := h
  unfold insertResult
  have hany : m.any (fun e => e.commit_id = r.commit_id) :=
    List.any_eq_true.mpr ⟨u, hu, by simpa using h1⟩
  rw [if_pos hany, List.map_map]
  apply List.map_congr_left
  intro e he
  by_cases hec : e.commit_id = r.commit_id
  · have heu : e = u := by
      have := List.inj_on_of_nodup_map hm he hu
      exact this (by rw [hec, h1])
    subst heu
    simp only [Function.comp, if_pos hec]
    unfold projSF
    refine Prod.ext (mergeInto_commit_id e r) (Prod.ext ?_ ?_)
    · show (mergeInto e r).score = e.score
      rw [mergeInto_score]
      exact max_eq_left h2
    · show (mergeInto e r).files = e.files
      rw [mergeInto_files]
      have : r.files.filter (fun f =>
          ¬ (e.files.map (fun g => g.file_path)).any (fun p => p = f.file_path)) = [] := by
        rw [List.filter_eq_nil_iff]
        intro f hf
        simp only [decide_eq_true_eq, not_not]
        rw [List.any_eq_true]
        exact ⟨f.file_path, h3 f hf, by simp⟩
      rw [this, List.append_nil]
  · simp [Function.comp, if_neg hec]
theorem nodup_of_proj_eq (m G : List SearchResult)
    (h : m.map projSF = G.map projSF)
    (hG : ((G.map (fun e => e.commit_id)).Nodup)) :
    ((m.map (fun e => e.commit_id)).Nodup) := by
  have : m.map (fun e => e.commit_id) = G.map (fun e => e.commit_id) := by
    have h1 := congrArg (List.map (fun t : Nat × ℚ × List FileEntry => t.1)) h
    rw [List.map_map, List.map_map] at h1
    exact h1
  rw [this]
  exact hG

theorem foldl_absorbed_proj (l2 : List SearchResult) :
    ∀ (m G : List SearchResult), m.map projSF = G.map projSF →
      ((G.map (fun e => e.commit_id)).Nodup) →
      (∀ x ∈ l2, Absorbed G x) →
      (l2.foldl insertResult m).map projSF = G.map projSF := by
  induction l2 with
  | nil => intro m G h _ _; exact h
  | cons x l2 ih =>
    intro m G h hG habs
    rw [List.foldl_cons]
    have hax : Absorbed m x :=
      absorbed_congr G m x h.symm (habs x (by simp))
    have hnd : ((m.map (fun e => e.commit_id)).Nodup) := nodup_of_proj_eq m G h hG
    have hstep : (insertResult m x).map projSF = m.map projSF :=
      absorbed_insert_proj m x hnd hax
    exact ih _ G (hstep.trans h) hG (fun y hy => habs y (List.mem_cons_of_mem x hy))

theorem findEntry_group_isSome (l : List SearchResult) (cid : Nat) :
    (findEntry (groupByCommit l) cid).isSome = true ↔ ∃ r ∈ l, r.commit_id = cid := by
  rw [findEntry_group]
  cases hf : l.filter (fun r => r.commit_id = cid) with
  | nil =>
    simp only [Option.isSome_none]
    constructor
    · intro h; exact absurd h (by simp)
    · rintro ⟨r, hr, hc⟩
      have : r ∈ l.filter (fun r => r.commit_id = cid) :=
        List.mem_filter.mpr ⟨hr, by simpa using hc⟩
      rw [hf] at this
      exact absurd this (by simp)
  | cons f fs =>
    simp only [Option.isSome_some, true_iff]
    have : f ∈ l.filter (fun r => r.commit_id = cid) := by rw [hf]; simp
    rw [List.mem_filter] at this
    exact ⟨f, this.1, by simpa using this.2⟩

/-- C3 (corrected): merging is not order-invariant at the level of full
result lists — permuting two equal-score candidate lists permutes the
output — and re-merging an identical candidate list is not idempotent —
the evidence snippets are concatenated again. -/
theorem merge_not_order_or_duplication_invariant :
    deduplicate_and_rank [tieOlder, tieNewer] 10
      ≠ deduplicate_and_rank [tieNewer, tieOlder] 10
  ∧ deduplicate_and_rank [candSnip, candSnip] 10 ≠ deduplicate_and_rank [candSnip] 10 :=
  ⟨by decide, by decide⟩

/-- C3 (amended): the score-max step of merging is order- and
duplication-insensitive: a permutation of the merger's input yields the
same set of merged commit ids with the same per-commit scores, and
re-merging any collection of already-present candidates changes neither
the commit ids nor the per-commit scores nor the matched-file lists (only
output order and concatenated snippet lists can differ, per the
counterexample). -/
theorem merge_scores_permutation_invariant :
    (∀ l l' : List SearchResult, l.Perm l' → ∀ cid : Nat,
        ((findEntry (groupByCommit l) cid).isSome
          = (findEntry (groupByCommit l') cid).isSome)
      ∧ (∀ e e', findEntry (groupByCommit l) cid = some e →
          findEntry (groupByCommit l') cid = some e' → e.score = e'.score))
  ∧ (∀ l l2 : List SearchResult, (∀ r ∈ l2, r ∈ l) →
      (groupByCommit (l ++ l2)).map projSF = (groupByCommit l).map projSF) := by
  constructor
  · intro l l' hperm cid
    constructor
    · rw [Bool.eq_iff_iff, findEntry_group_isSome, findEntry_group_isSome]
      constructor
      · rintro ⟨r, hr, hc⟩; exact ⟨r, hperm.mem_iff.mp hr, hc⟩
      · rintro ⟨r, hr, hc⟩; exact ⟨r, hperm.mem_iff.mpr hr, hc⟩
    · intro e e' he he'
      obtain ⟨hmem, hub⟩ := group_score_max l cid e he
      obtain ⟨hmem', hub'⟩ := group_score_max l' cid e' he'
      have hpf : ((candidatesFor l cid).map (fun r => r.score)).Perm
          ((candidatesFor l' cid).map (fun r => r.score)) :=
        (hperm.filter (fun r => r.commit_id = cid)).map (fun r => r.score)
      apply le_antisymm
      · exact hub' e.score (hpf.mem_iff.mp hmem)
      · exact hub e'.score (hpf.mem_iff.mpr hmem')
  · intro l l2 hsub
    unfold groupByCommit
    rw [List.foldl_append]
    exact foldl_absorbed_proj l2 (groupByCommit l) (groupByCommit l) rfl
      (groupByCommit_nodup l) (fun x hx => absorbed_group l x (hsub x hx))

/-- Witness for C3: a singleton permutation and a duplicated singleton. -/
theorem merge_scores_permutation_invariant_witness :
    ((findEntry (groupByCommit [candA]) 1).isSome
      = (findEntry (groupByCommit [candA]) 1).isSome)
  ∧ (groupByCommit ([candA] ++ [candA])).map projSF
      = (groupByCommit [candA]).map projSF :=
  ⟨(merge_scores_permutation_invariant.1 [candA] [candA] (List.Perm.refl _) 1).1,
   merge_scores_permutation_invariant.2 [candA] [candA] (by simp)⟩
/-- Witness for C1 at a single keyword candidate for commit 1. -/
theorem merge_score_max_files_union_witness :
    (candA.score ∈ (candidatesFor [candA] 1).map (fun r => r.score)
      ∧ ∀ s ∈ (candidatesFor [candA] 1).map (fun r => r.score), s ≤ candA.score)
  ∧ candA.files = dedupByPath ((candidatesFor [candA] 1).flatMap (fun r => r.files))
  ∧ ((candA.files.map (fun f => f.file_path)).Nodup) :=
  merge_score_max_files_union [candA] 1 candA (by decide) (by decide)

end DevLog
namespace DevLog

theorem dedupAux_drop_all {α β : Type} [DecidableEq β] (key : α → β) :
    ∀ (l1 l2 : List α) (s : List β), (∀ x ∈ l1, s.any (fun k => k = key x)) →
      dedupByKeyAux key s (l1 ++ l2) = dedupByKeyAux key s l2 := by
  intro l1
  induction l1 with
  | nil => intro l2 s _; rfl
  | cons a l1 ih =>
    intro l2 s h
    rw [List.cons_append, dedupAux_cons, if_pos (h a (by simp))]
    exact ih l2 s (fun x hx => h x (List.mem_cons_of_mem a hx))

theorem sInsert_map {α β : Type} (f : α → β) (lea : α → α → Bool) (leb : β → β → Bool)
    (h : ∀ a b, leb (f a) (f b) = lea a b) (a : α) :
    ∀ l : List α, (sInsert lea a l).map f = sInsert leb (f a) (l.map f) := by
  intro l
  induction l with
  | nil => rfl
  | cons b bs ih =>
    by_cases hle : lea a b
    · simp [sInsert, hle, h a b]
    · simp only [sInsert, if_neg hle, List.map_cons]
      rw [h a b, if_neg hle, ih]

theorem stableSortBy_map {α β : Type} (f : α → β) (lea : α → α → Bool)
    (leb : β → β → Bool) (h : ∀ a b, leb (f a) (f b) = lea a b) :
    ∀ l : List α, (stableSortBy lea l).map f = stableSortBy leb (l.map f) := by
  intro l
  induction l with
  | nil => rfl
  | cons a as ih =>
    rw [List.map_cons]
    show (sInsert lea a (stableSortBy lea as)).map f
      = sInsert leb (f a) (stableSortBy leb (as.map f))
    rw [sInsert_map f lea leb h, ih]

theorem filter_key_short {α β : Type} [DecidableEq β] (key : α → β) :
    ∀ (l : List α), ((l.map key).Nodup) → ∀ k : β,
      l.filter (fun x => key x = k) = []
      ∨ ∃ x, l.filter (fun x => key x = k) = [x] := by
  intro l
  induction l with
  | nil => intro _ k; exact Or.inl rfl
  | cons a l ih =>
    intro hnd k
    rw [List.map_cons, List.nodup_cons] at hnd
    rw [List.filter_cons]
    by_cases h : key a = k
    · rw [if_pos (by simp [h])]
      have : l.filter (fun x => key x = k) = [] := by
        rw [List.filter_eq_nil_iff]
        intro x hx hkx
        simp only [decide_eq_true_eq] at hkx
        exact hnd.1 (by rw [h, ← hkx]; exact List.mem_map_of_mem key hx)
      rw [this]
      exact Or.inr ⟨a, rfl⟩
    · rw [if_neg (by simp [h])]
      exact ih hnd.2 k

end DevLog
namespace DevLog

theorem kwRowsFor_fst (db : Database) (c : CommitRow) :
    ∀ row ∈ kwRowsFor db c, row.1 = c := by
  intro row hrow
  unfold kwRowsFor at hrow
  rw [List.mem_flatMap] at hrow
  obtain ⟨r, _, hrow⟩ := hrow
  cases hcc : db.code_changes.filter (fun cc => cc.commit_id = c.id) with
  | nil =>
    rw [hcc] at hrow
    rw [List.mem_singleton] at hrow
    rw [hrow]
  | cons cc0 ccs =>
    rw [hcc] at hrow
    rw [List.mem_map] at hrow
    obtain ⟨cc, _, heq⟩ := hrow
    rw [← heq]

theorem kwRowsFor_repo (db : Database) (c : CommitRow) (r0 : RepoRow)
    (hr0 : db.tracked_repos.filter (fun r => r.id = c.repo_id) = [r0]) :
    ∀ row ∈ kwRowsFor db c, row.2.1 = r0 := by
  intro row hrow
  unfold kwRowsFor at hrow
  rw [hr0] at hrow
  rw [List.mem_flatMap] at hrow
  obtain ⟨r, hr, hrow⟩ := hrow
  rw [List.mem_singleton] at hr
  subst hr
  cases hcc : db.code_changes.filter (fun cc => cc.commit_id = c.id) with
  | nil =>
    rw [hcc] at hrow
    rw [List.mem_singleton] at hrow
    rw [hrow]
  | cons cc0 ccs =>
    rw [hcc] at hrow
    rw [List.mem_map] at hrow
    obtain ⟨cc, _, heq⟩ := hrow
    rw [← heq]

theorem mem_kwRowsFor (db : Database) (c : CommitRow) (row : KwRow) :
    row ∈ kwRowsFor db c ↔
      ∃ r, (r ∈ db.tracked_repos ∧ r.id = c.repo_id) ∧
        ((db.code_changes.filter (fun cc => cc.commit_id = c.id) = [] ∧ row = (c, r, none))
         ∨ (∃ cc, cc ∈ db.code_changes.filter (fun cc => cc.commit_id = c.id)
              ∧ row = (c, r, some cc))) := by
  unfold kwRowsFor
  rw [List.mem_flatMap]
  constructor
  · rintro ⟨r, hr, hrow⟩
    rw [List.mem_filter] at hr
    refine ⟨r, ⟨hr.1, by simpa using hr.2⟩, ?_⟩
    cases hcc : db.code_changes.filter (fun cc => cc.commit_id = c.id) with
    | nil =>
      rw [hcc] at hrow
      rw [List.mem_singleton] at hrow
      exact Or.inl ⟨rfl, hrow⟩
    | cons cc0 ccs =>
      rw [hcc] at hrow
      rw [List.mem_map] at hrow
      obtain ⟨cc, hccm, heq⟩ := hrow
      exact Or.inr ⟨cc, hcc ▸ hccm, heq.symm⟩
  · rintro ⟨r, ⟨hrmem, hrid⟩, hrest⟩
    refine ⟨r, List.mem_filter.mpr ⟨hrmem, by simpa using hrid⟩, ?_⟩
    rcases hrest with ⟨hnil, hroweq⟩ | ⟨cc, hccm, hroweq⟩
    · rw [hnil, hroweq]
      simp
    · cases hcc : db.code_changes.filter (fun cc => cc.commit_id = c.id) with
      | nil => rw [hcc] at hccm; exact absurd hccm (by simp)
      | cons cc0 ccs =>
        rw [List.mem_map]
        exact ⟨cc, hcc ▸ hccm, hroweq.symm⟩

theorem kwWhere_empty_eq (repo_filter language : Option String) (row : KwRow) :
    kwWhere "" repo_filter language row
      = (row.2.1.active
        && (match repo_filter with
            | some rf => likeContains row.2.1.repo_name rf
            | none => true)
        && (match language with
            | some lg => (match row.2.2 with
                | some cc => cc.language = lg
                | none => false)
            | none => true)) := by
  unfold kwWhere
  have h1 : (decide (("" : String) = "") || likeContains row.1.message ""
      || (match row.2.2 with
          | some cc => likeContains cc.file_path ""
          | none => false)) = true := by
    simp
  rw [h1]
  rw [Bool.and_true]

theorem kwRowsFor_nonempty_filter (db : Database) (repo_filter language : Option String)
    (c : CommitRow) :
    ((kwRowsFor db c).filter (kwWhere "" repo_filter language) ≠ [])
      ↔ qualifies db repo_filter language c = true := by
  rw [Ne, List.filter_eq_nil_iff]
  unfold qualifies
  rw [Bool.and_eq_true, List.any_eq_true]
  constructor
  · intro hne
    rw [not_forall] at hne
    obtain ⟨row, hrow⟩ := hne
    rw [not_forall] at hrow
    obtain ⟨hmem, hcond⟩ := hrow
    rw [not_not] at hcond
    rw [kwWhere_empty_eq] at hcond
    rw [mem_kwRowsFor] at hmem
    obtain ⟨r, ⟨hrmem, hrid⟩, hrest⟩ := hmem
    have hr2 : row.2.1 = r := by
      rcases hrest with ⟨_, hroweq⟩ | ⟨cc, _, hroweq⟩ <;> rw [hroweq]
    rw [Bool.and_eq_true, Bool.and_eq_true] at hcond
    constructor
    · refine ⟨r, hrmem, ?_⟩
      rw [Bool.and_eq_true, Bool.and_eq_true]
      refine ⟨⟨by simpa using hrid, by rw [← hr2]; exact hcond.1.1⟩, ?_⟩
      rcases repo_filter with _ | rf
      · rfl
      · rw [← hr2]
        exact hcond.1.2
    · rcases language with _ | lg
      · rfl
      · have hlang := hcond.2
        cases hrow3 : row.2.2 with
        | none => rw [hrow3] at hlang; exact absurd hlang (by simp)
        | some cc =>
          rw [hrow3] at hlang
          have hccm : cc ∈ db.code_changes.filter (fun x => x.commit_id = c.id) := by
            rcases hrest with ⟨_, hroweq⟩ | ⟨cc2, hcc2, hroweq⟩
            · rw [hroweq] at hrow3
              exact absurd hrow3 (by simp)
            · rw [hroweq] at hrow3
              simp only at hrow3
              obtain rfl := Option.some_injective _ hrow3
              exact hcc2
          rw [List.mem_filter] at hccm
          rw [List.any_eq_true]
          refine ⟨cc, hccm.1, ?_⟩
          rw [Bool.and_eq_true]
          exact ⟨hccm.2, hlang⟩
  · rintro ⟨⟨r, hrmem, hrcond⟩, hlg⟩
    rw [Bool.and_eq_true, Bool.and_eq_true] at hrcond
    intro hall
    rcases language with _ | lg
    · -- no language filter: the block always has a row for r
      cases hcc : db.code_changes.filter (fun cc => cc.commit_id = c.id) with
      | nil =>
        have hmem : ((c, r, none) : KwRow) ∈ kwRowsFor db c := by
          rw [mem_kwRowsFor]
          exact ⟨r, ⟨hrmem, by simpa using hrcond.1.1⟩, Or.inl ⟨hcc, rfl⟩⟩
        refine hall _ hmem ?_
        rw [kwWhere_empty_eq]
        simp only
        rw [Bool.and_eq_true, Bool.and_eq_true]
        refine ⟨⟨hrcond.1.2, ?_⟩, rfl⟩
        rcases repo_filter with _ | rf
        · rfl
        · exact hrcond.2
      | cons cc0 ccs =>
        have hcc0 : cc0 ∈ db.code_changes.filter (fun cc => cc.commit_id = c.id) := by
          rw [hcc]; simp
        have hmem : ((c, r, some cc0) : KwRow) ∈ kwRowsFor db c := by
          rw [mem_kwRowsFor]
          exact ⟨r, ⟨hrmem, by simpa using hrcond.1.1⟩, Or.inr ⟨cc0, hcc0, rfl⟩⟩
        refine hall _ hmem ?_
        rw [kwWhere_empty_eq]
        simp only
        rw [Bool.and_eq_true, Bool.and_eq_true]
        refine ⟨⟨hrcond.1.2, ?_⟩, rfl⟩
        rcases repo_filter with _ | rf
        · rfl
        · exact hrcond.2
    · -- language filter: some change matches
      rw [List.any_eq_true] at hlg
      obtain ⟨cc, hccmem, hcclang⟩ := hlg
      rw [Bool.and_eq_true] at hcclang
      have hccf : cc ∈ db.code_changes.filter (fun x => x.commit_id = c.id) :=
        List.mem_filter.mpr ⟨hccmem, hcclang.1⟩
      have hmem : ((c, r, some cc) : KwRow) ∈ kwRowsFor db c := by
        rw [mem_kwRowsFor]
        exact ⟨r, ⟨hrmem, by simpa using hrcond.1.1⟩, Or.inr ⟨cc, hccf, rfl⟩⟩
      refine hall _ hmem ?_
      rw [kwWhere_empty_eq]
      simp only
      rw [Bool.and_eq_true, Bool.and_eq_true]
      refine ⟨⟨hrcond.1.2, ?_⟩, hcclang.2⟩
      rcases repo_filter with _ | rf
      · rfl
      · exact hrcond.2

theorem filter_flatMap_eq {α β : Type} (p : β → Bool) (f : α → List β) :
    ∀ l : List α, (l.flatMap f).filter p = l.flatMap (fun a => (f a).filter p)
  | [] => rfl
  | a :: as => by
    rw [List.flatMap_cons, List.filter_append, List.flatMap_cons,
      filter_flatMap_eq p f as]

theorem filter_kwJoinRows (db : Database) (repo_filter language : Option String) :
    (kwJoinRows db).filter (kwWhere "" repo_filter language)
      = db.git_commits.flatMap (kwBlock db repo_filter language) := by
  unfold kwJoinRows
  exact filter_flatMap_eq _ _ _

theorem kwBlock_fst (db : Database) (repo_filter language : Option String)
    (c : CommitRow) :
    ∀ row ∈ kwBlock db repo_filter language c, row.1 = c :=
  fun row h => kwRowsFor_fst db c row (List.mem_of_mem_filter h)

theorem kwBlock_key_const (db : Database) (repo_filter language : Option String)
    (hrepo : (db.tracked_repos.map (fun r => r.id)).Nodup) (c : CommitRow) :
    ∀ row ∈ kwBlock db repo_filter language c,
      ∀ row2 ∈ kwBlock db repo_filter language c,
        kwDistinctKey row = kwDistinctKey row2 := by
  intro row hrow row2 hrow2
  have hfk := filter_key_short (fun r : RepoRow => r.id) db.tracked_repos hrepo c.repo_id
  simp only at hfk
  rcases hfk with hnil | ⟨r0, hr0⟩
  · exfalso
    have hempty : kwRowsFor db c = [] := by
      unfold kwRowsFor
      rw [hnil]
      rfl
    have := List.mem_of_mem_filter hrow
    rw [hempty] at this
    exact absurd this (List.not_mem_nil _)
  · have h1 := kwRowsFor_repo db c r0 hr0 row (List.mem_of_mem_filter hrow)
    have h2 := kwRowsFor_repo db c r0 hr0 row2 (List.mem_of_mem_filter hrow2)
    have h3 := kwBlock_fst db repo_filter language c row hrow
    have h4 := kwBlock_fst db repo_filter language c row2 hrow2
    unfold kwDistinctKey
    rw [h1, h2, h3, h4]

theorem dedupAux_blocks (db : Database) (repo_filter language : Option String)
    (hrepo : (db.tracked_repos.map (fun r => r.id)).Nodup) :
    ∀ (l : List CommitRow) (seen : List (CommitRow × String × String)),
      (l.map (fun c => c.id)).Nodup →
      (∀ c ∈ l, ∀ row ∈ kwBlock db repo_filter language c,
        kwDistinctKey row ∉ seen) →
      (dedupByKeyAux kwDistinctKey seen
          (l.flatMap (kwBlock db repo_filter language))).map (fun row => row.1)
        = l.filter (fun c => !(kwBlock db repo_filter language c).isEmpty)
  | [], seen, _, _ => by simp [dedupByKeyAux]
  | c :: cs, seen, hnd, hseen => by
    rw [List.map_cons, List.nodup_cons] at hnd
    rw [List.flatMap_cons, List.filter_cons]
    have hseentail : ∀ c2 ∈ cs, ∀ row ∈ kwBlock db repo_filter language c2,
        kwDistinctKey row ∉ seen :=
      fun c2 hc2 row hrow => hseen c2 (List.mem_cons_of_mem c hc2) row hrow
    cases hB : kwBlock db repo_filter language c with
    | nil =>
      rw [List.nil_append]
      rw [dedupAux_blocks db repo_filter language hrepo cs seen hnd.2 hseentail]
      rw [if_neg (by simp)]
    | cons r0 rs =>
      have hr0mem : r0 ∈ kwBlock db repo_filter language c := by
        rw [hB]; exact List.mem_cons_self r0 rs
      rw [List.cons_append, dedupAux_cons]
      rw [if_neg ?hnotseen]
      case hnotseen =>
        rw [List.any_eq_true]
        rintro ⟨x, hx, hxe⟩
        rw [decide_eq_true_eq] at hxe
        exact hseen c (List.mem_cons_self c cs) r0 hr0mem (hxe ▸ hx)
      rw [dedupAux_drop_all kwDistinctKey rs _ _ ?hdrop]
      case hdrop =>
        intro x hx
        rw [List.any_eq_true]
        refine ⟨kwDistinctKey r0, List.mem_cons_self _ _, ?_⟩
        rw [decide_eq_true_eq]
        exact kwBlock_key_const db repo_filter language hrepo c r0 hr0mem x
          (by rw [hB]; exact List.mem_cons_of_mem r0 hx)
      rw [List.map_cons]
      rw [dedupAux_blocks db repo_filter language hrepo cs
        (kwDistinctKey r0 :: seen) hnd.2 ?hseen2]
      case hseen2 =>
        intro c2 hc2 row hrow hmem
        rcases List.mem_cons.mp hmem with heq | hmemseen
        · have h1 := kwBlock_fst db repo_filter language c2 row hrow
          have h2 := kwBlock_fst db repo_filter language c r0 hr0mem
          have h3 : row.1 = r0.1 :=
            congrArg (fun k : CommitRow × String × String => k.1) heq
          rw [h1, h2] at h3
          exact hnd.1 (h3 ▸ List.mem_map_of_mem (fun x => x.id) hc2)
        · exact hseentail c2 hc2 row hrow hmemseen
      rw [if_pos (show (!(r0 :: rs).isEmpty) = true from rfl)]
      rw [kwBlock_fst db repo_filter language c r0 hr0mem]

theorem kwBlock_nonempty_eq_qualifies (db : Database)
    (repo_filter language : Option String) (c : CommitRow) :
    (!(kwBlock db repo_filter language c).isEmpty)
      = qualifies db repo_filter language c := by
  have h4 := kwRowsFor_nonempty_filter db repo_filter language c
  cases hq : qualifies db repo_filter language c with
  | false =>
    have hnil : (kwRowsFor db c).filter (kwWhere "" repo_filter language) = [] := by
      by_contra hne
      have hq2 := h4.mp hne
      rw [hq] at hq2
      exact absurd hq2 (by simp)
    unfold kwBlock
    rw [hnil]
    rfl
  | true =>
    have hne := h4.mpr hq
    unfold kwBlock
    cases hB : (kwRowsFor db c).filter (kwWhere "" repo_filter language) with
    | nil => exact absurd hB hne
    | cons x xs => rfl

/-- C10: with an empty query string, `keyword_search` applies no
message/file-path condition at all: provided repository and commit ids are
unique, the returned commit ids are exactly those of the commits of active
repositories passing the repo-name and language filters, ordered by
timestamp descending and truncated to `limit`; every result carries
`match_type = "keyword"` and `score = 0.6`; and when `limit` is positive
and some stored commit qualifies, the result list is non-empty rather than
empty. -/
theorem keyword_search_empty_query (db : Database)
    (repo_filter language : Option String) (limit : Nat)
    (hrepo : (db.tracked_repos.map (fun r => r.id)).Nodup)
    (hcom : (db.git_commits.map (fun c => c.id)).Nodup) :
    (keyword_search db "" repo_filter language limit).map (fun r => r.commit_id)
        = (keywordSpecEmpty db repo_filter language limit).map (fun c => c.id)
      ∧ (∀ r ∈ keyword_search db "" repo_filter language limit,
          r.match_type = "keyword" ∧ r.score = 0.6)
      ∧ List.Pairwise (fun a b => b.timestamp ≤ a.timestamp)
          (keyword_search db "" repo_filter language limit)
      ∧ (keyword_search db "" repo_filter language limit).length ≤ limit
      ∧ (0 < limit →
          (∃ c ∈ db.git_commits, qualifies db repo_filter language c = true) →
          keyword_search db "" repo_filter language limit ≠ []) := by
  have hdedup : (dedupByKey kwDistinctKey
        ((kwJoinRows db).filter (kwWhere "" repo_filter language))).map
          (fun row => row.1)
      = db.git_commits.filter (qualifies db repo_filter language) := by
    unfold dedupByKey
    rw [filter_kwJoinRows]
    rw [dedupAux_blocks db repo_filter language hrepo db.git_commits [] hcom
      (fun c _ row _ h => absurd h (List.not_mem_nil _))]
    exact List.filter_congr
      (fun c _ => kwBlock_nonempty_eq_qualifies db repo_filter language c)
  have hsorted : (stableSortBy kwTsDescLe (dedupByKey kwDistinctKey
        ((kwJoinRows db).filter (kwWhere "" repo_filter language)))).map
          (fun row => row.1)
      = stableSortBy (fun a b : CommitRow => decide (b.timestamp ≤ a.timestamp))
          (db.git_commits.filter (qualifies db repo_filter language)) := by
    rw [stableSortBy_map (fun row : KwRow => row.1) kwTsDescLe
      (fun a b : CommitRow => decide (b.timestamp ≤ a.timestamp))
      (fun a b => rfl)]
    rw [hdedup]
  have hmain : (keyword_search db "" repo_filter language limit).map
        (fun r => r.commit_id)
      = (keywordSpecEmpty db repo_filter language limit).map (fun c => c.id) := by
    show ((((stableSortBy kwTsDescLe (dedupByKey kwDistinctKey
        ((kwJoinRows db).filter (kwWhere "" repo_filter language)))).take
          limit).map (kwResultOf db)).map (fun r => r.commit_id))
      = _
    rw [List.map_map, List.map_take]
    have hcomp : (stableSortBy kwTsDescLe (dedupByKey kwDistinctKey
          ((kwJoinRows db).filter (kwWhere "" repo_filter language)))).map
            ((fun r : KwResult => r.commit_id) ∘ kwResultOf db)
        = ((stableSortBy kwTsDescLe (dedupByKey kwDistinctKey
            ((kwJoinRows db).filter (kwWhere "" repo_filter language)))).map
              (fun row => row.1)).map (fun c : CommitRow => c.id) := by
      rw [List.map_map]
      rfl
    rw [hcomp, hsorted]
    unfold keywordSpecEmpty
    rw [List.map_take]
  refine ⟨hmain, ?_, ?_, ?_, ?_⟩
  · intro r hr
    have hr2 : r ∈ ((stableSortBy kwTsDescLe (dedupByKey kwDistinctKey
        ((kwJoinRows db).filter (kwWhere "" repo_filter language)))).take
          limit).map (kwResultOf db) := hr
    rw [List.mem_map] at hr2
    obtain ⟨row, _, hrow⟩ := hr2
    rw [← hrow]
    exact ⟨rfl, rfl⟩
  · show List.Pairwise _ (((stableSortBy kwTsDescLe (dedupByKey kwDistinctKey
        ((kwJoinRows db).filter (kwWhere "" repo_filter language)))).take
          limit).map (kwResultOf db))
    rw [List.pairwise_map]
    have hp := stableSortBy_pairwise kwTsDescLe
      (fun a b c hab hbc => by
        unfold kwTsDescLe at hab hbc ⊢
        rw [decide_eq_true_eq] at hab hbc ⊢
        exact le_trans hbc hab)
      (fun a b => by
        unfold kwTsDescLe
        rcases le_total b.1.timestamp a.1.timestamp with h | h
        · exact Or.inl (by rw [decide_eq_true_eq]; exact h)
        · exact Or.inr (by rw [decide_eq_true_eq]; exact h))
      (dedupByKey kwDistinctKey
        ((kwJoinRows db).filter (kwWhere "" repo_filter language)))
    have hp2 := List.Pairwise.sublist (List.take_sublist limit _) hp
    refine hp2.imp ?_
    intro a b hab
    unfold kwTsDescLe at hab
    rw [decide_eq_true_eq] at hab
    exact hab
  · show (((stableSortBy kwTsDescLe (dedupByKey kwDistinctKey
        ((kwJoinRows db).filter (kwWhere "" repo_filter language)))).take
          limit).map (kwResultOf db)).length ≤ limit
    rw [List.length_map]
    exact List.length_take_le limit _
  · intro hlim hex hempty
    obtain ⟨c, hc, hq⟩ := hex
    have hmapnil : (keywordSpecEmpty db repo_filter language limit).map
        (fun c => c.id) = [] := by
      rw [← hmain, hempty]
      rfl
    rw [List.map_eq_nil_iff] at hmapnil
    unfold keywordSpecEmpty at hmapnil
    have hcf : c ∈ db.git_commits.filter (qualifies db repo_filter language) :=
      List.mem_filter.mpr ⟨hc, hq⟩
    have hperm := stableSortBy_perm
      (fun a b : CommitRow => decide (b.timestamp ≤ a.timestamp))
      (db.git_commits.filter (qualifies db repo_filter language))
    have hlen : 0 < (stableSortBy
        (fun a b : CommitRow => decide (b.timestamp ≤ a.timestamp))
        (db.git_commits.filter (qualifies db repo_filter language))).length := by
      rw [hperm.length_eq]
      exact List.length_pos_of_mem hcf
    have : 0 < (List.take limit (stableSortBy
        (fun a b : CommitRow => decide (b.timestamp ≤ a.timestamp))
        (db.git_commits.filter (qualifies db repo_filter language)))).length := by
      rw [List.length_take]
      exact lt_min hlim hlen
    rw [hmapnil] at this
    exact absurd this (by simp)

/-- Concrete instance of the empty-query keyword-search theorem on the
one-commit store: both uniqueness hypotheses hold there. -/
theorem keyword_search_empty_query_witness :
    ((sampleDb.tracked_repos.map (fun r => r.id)).Nodup
        ∧ (sampleDb.git_commits.map (fun c => c.id)).Nodup)
      ∧ ((keyword_search sampleDb "" none none 5).map (fun r => r.commit_id)
            = (keywordSpecEmpty sampleDb none none 5).map (fun c => c.id)
          ∧ (∀ r ∈ keyword_search sampleDb "" none none 5,
              r.match_type = "keyword" ∧ r.score = 0.6)
          ∧ List.Pairwise (fun a b => b.timestamp ≤ a.timestamp)
              (keyword_search sampleDb "" none none 5)
          ∧ (keyword_search sampleDb "" none none 5).length ≤ 5
          ∧ (0 < 5 →
              (∃ c ∈ sampleDb.git_commits, qualifies sampleDb none none c = true) →
              keyword_search sampleDb "" none none 5 ≠ [])) :=
  ⟨⟨by decide, by decide⟩,
    keyword_search_empty_query sampleDb none none 5 (by decide) (by decide)⟩

end DevLog
